import Mathlib

/-!
Verification development for the `temporis` date-expression parser
(`src/lib.rs`).  The Rust function `parse_date` normalizes its input
(trim + lowercase), then tries a fixed, ordered list of shape matchers
(regular expressions and literal-keyword tables) and dispatches the first
structural match to a resolver built on calendar arithmetic over
`chrono::NaiveDate`.

The shallow embedding below mirrors that code:

* a calendar date is a `(year, month, day)` triple of integers with the
  proleptic-Gregorian validity predicate `DValid`; `chrono`'s
  `NaiveDate::from_ymd_opt` becomes `fromYmd?`, its `Ord` becomes the
  lexicographic (equivalently chronological) order `dlt`, and
  `date + Duration::days(n)` becomes `addDays` (iterated calendar
  successor / predecessor);
* each regular expression of the source becomes an explicit scanner over
  `List Char` (maximal-munch digit/alpha runs, which is equivalent to the
  anchored regexes used, since every bounded digit group is followed by a
  non-digit requirement);
* the clock: the Rust code calls `Local::now()` once in `parse_date`
  itself and once more inside `find_next_weekday` / `find_weekday_offset`.
  The model therefore takes two moment parameters `now` (the read at the
  top of `parse_date`) and `noww` (the read inside the weekday helpers);
  a run in which the clock does not tick between the two reads is modeled
  by passing the same date twice.
-/

/-- ASCII digit test, the model of the regex digit class. -/
def isDigitC (c : Char) : Bool := 48 ≤ c.toNat && c.toNat ≤ 57

/-- ASCII letter test, the model of the regex class `[a-zA-Z]`. -/
def isAlphaC (c : Char) : Bool :=
  (65 ≤ c.toNat && c.toNat ≤ 90) || (97 ≤ c.toNat && c.toNat ≤ 122)

/-- Separator class (dash or slash) used by all the date-shaped regexes. -/
def isSepC (c : Char) : Bool := c = '-' || c = '/'

/-- Whitespace test backing the model of `str::trim`. -/
def isWhiteC (c : Char) : Bool := c = ' ' || c = '\t' || c = '\n' || c = '\r'

/-- ASCII lowercasing of one character, the model of `to_lowercase` on the
inputs this development deals with. -/
def lowerC (c : Char) : Char :=
  if 65 ≤ c.toNat ∧ c.toNat ≤ 90 then Char.ofNat (c.toNat + 32) else c

/-- Model of `str::trim` followed by `to_lowercase`: the preprocessing
`date_str.trim().to_lowercase()` at the top of `parse_date`. -/
def normalizeInput (l : List Char) : List Char :=
  (((l.dropWhile isWhiteC).reverse.dropWhile isWhiteC).reverse).map lowerC

/-- Maximal run of ASCII digits at the front of the input, with the rest. -/
def takeDigits : List Char → List Char × List Char
  | [] => ([], [])
  | c :: l =>
    if isDigitC c then
      let p := takeDigits l
      (c :: p.1, p.2)
    else ([], c :: l)

/-- Maximal run of ASCII letters at the front of the input, with the rest. -/
def takeAlpha : List Char → List Char × List Char
  | [] => ([], [])
  | c :: l =>
    if isAlphaC c then
      let p := takeAlpha l
      (c :: p.1, p.2)
    else ([], c :: l)

/-- Decimal value of a digit run, the model of `str::parse` on the capture
groups (all of which are pure digit strings). -/
def valD (l : List Char) : Nat :=
  l.foldl (fun a c => 10 * a + (c.toNat - 48)) 0

/-- First-match lookup in an association list keyed by strings; the model
both of the `match input.as_str()` literal tables and of the anchored
alternation groups such as `(monday|mon|…)` of the regexes. -/
def lookupL {α : Type} : List (List Char × α) → List Char → Option α
  | [], _ => none
  | (k, v) :: t, l => if l = k then some v else lookupL t l

/-- Characters of a string literal (claims and witnesses feed concrete
inputs through this). -/
def s2l (s : String) : List Char := s.toList

/-! ## The calendar: model of the `chrono::NaiveDate` interface used -/

/-- Exact proleptic-Gregorian leap-year rule. -/
def IsLeap (y : Int) : Prop := (y % 4 = 0 ∧ y % 100 ≠ 0) ∨ y % 400 = 0

instance (y : Int) : Decidable (IsLeap y) := by unfold IsLeap; infer_instance

/-- One extra day in leap years. -/
def leapAdj (y : Int) : Int := if IsLeap y then 1 else 0

/-- Days in a month, February adjusted by the leap rule. -/
def daysInMonth (y m : Int) : Int :=
  if m = 2 then 28 + leapAdj y
  else if m = 4 ∨ m = 6 ∨ m = 9 ∨ m = 11 then 30 else 31

/-- A calendar date as stored by the program: year, month, day. -/
structure Date where
  y : Int
  m : Int
  d : Int
  deriving DecidableEq

/-- Calendar validity, exactly the condition under which
`NaiveDate::from_ymd_opt` returns `Some`. -/
def DValid (t : Date) : Prop :=
  1 ≤ t.m ∧ t.m ≤ 12 ∧ 1 ≤ t.d ∧ t.d ≤ daysInMonth t.y t.m

instance (t : Date) : Decidable (DValid t) := by unfold DValid; infer_instance

/-- Model of `NaiveDate::from_ymd_opt`. -/
def fromYmd? (y m d : Int) : Option Date :=
  if DValid ⟨y, m, d⟩ then some ⟨y, m, d⟩ else none

/-- Chronological strict order on dates (for valid dates `chrono`'s `Ord`
on `NaiveDate` coincides with this lexicographic order). -/
def dlt (a b : Date) : Prop :=
  a.y < b.y ∨ (a.y = b.y ∧ (a.m < b.m ∨ (a.m = b.m ∧ a.d < b.d)))

instance (a b : Date) : Decidable (dlt a b) := by unfold dlt; infer_instance

/-- Order `a ≤ b` on dates, the model of `date >= today` comparisons. -/
def dle (a b : Date) : Prop := dlt a b ∨ a = b

instance (a b : Date) : Decidable (dle a b) := by unfold dle; infer_instance

/-- Cumulative month lengths: days in year `y` spent in the first `n`
months. -/
def dbmN (y : Int) : Nat → Int
  | 0 => 0
  | n + 1 => dbmN y n + daysInMonth y ((n : Int) + 1)

/-- Days in the year before the first of the given month. -/
def daysBeforeMonth (y m : Int) : Int := dbmN y (m - 1).toNat

/-- Days from the epoch (January 1 of year 0) to January 1 of year `y`. -/
def daysBeforeYear (y : Int) : Int :=
  365 * y + ((y - 1) / 4 - (y - 1) / 100 + (y - 1) / 400)

/-- Linear day number of a date (days since January 1 of year 0); the
scale on which `chrono` duration arithmetic and `signed_duration_since`
operate. -/
def toDays (t : Date) : Int :=
  daysBeforeYear t.y + daysBeforeMonth t.y t.m + (t.d - 1)

/-- Next calendar day. -/
def succD (t : Date) : Date :=
  if t.d < daysInMonth t.y t.m then ⟨t.y, t.m, t.d + 1⟩
  else if t.m < 12 then ⟨t.y, t.m + 1, 1⟩
  else ⟨t.y + 1, 1, 1⟩

/-- Previous calendar day. -/
def predD (t : Date) : Date :=
  if 1 < t.d then ⟨t.y, t.m, t.d - 1⟩
  else if 1 < t.m then ⟨t.y, t.m - 1, daysInMonth t.y (t.m - 1)⟩
  else ⟨t.y - 1, 12, 31⟩

/-- Model of `date + Duration::days(n)` (and of subtraction for negative
`n`): iterated calendar successor / predecessor. -/
def addDays (t : Date) (n : Int) : Date :=
  if 0 ≤ n then succD^[n.toNat] t else predD^[(-n).toNat] t

/-- Value of `num_days_from_monday` of a date's weekday (Monday = 0 … Sunday = 6),
computed from the linear day number; January 1 of year 0 falls on a
Saturday in the proleptic Gregorian calendar. -/
def ndfmD (t : Date) : Int := (toDays t + 6) % 7

/-! ## Calendar arithmetic lemmas -/

theorem leapAdj_bounds (y : Int) : 0 ≤ leapAdj y ∧ leapAdj y ≤ 1 := by
  unfold leapAdj; split_ifs <;> omega

theorem daysInMonth_bounds (y m : Int) :
    28 ≤ daysInMonth y m ∧ daysInMonth y m ≤ 31 := by
  have := leapAdj_bounds y
  unfold daysInMonth; split_ifs <;> omega

theorem daysBeforeMonth_step {y m : Int} (h1 : 1 ≤ m) :
    daysBeforeMonth y (m + 1) = daysBeforeMonth y m + daysInMonth y m := by
  unfold daysBeforeMonth
  have h2 : (m + 1 - 1).toNat = (m - 1).toNat + 1 := by omega
  rw [h2]
  show dbmN y (m - 1).toNat + daysInMonth y (((m - 1).toNat : Int) + 1) = _
  rw [Int.toNat_of_nonneg (by omega : (0:Int) ≤ m - 1)]
  ring_nf

theorem dbmN_mono (y : Int) {a b : Nat} (h : a ≤ b) : dbmN y a ≤ dbmN y b := by
  induction b with
  | zero => simp at h; simp [h]
  | succ n ih =>
    rcases Nat.lt_or_ge a (n + 1) with h' | h'
    · have := ih (by omega)
      have := daysInMonth_bounds y ((n : Int) + 1)
      show dbmN y a ≤ dbmN y n + daysInMonth y ((n : Int) + 1)
      omega
    · have : a = n + 1 := by omega
      subst this; omega

theorem daysBeforeMonth_nonneg (y m : Int) : 0 ≤ daysBeforeMonth y m := by
  unfold daysBeforeMonth
  have : dbmN y 0 ≤ dbmN y (m - 1).toNat := dbmN_mono y (Nat.zero_le _)
  simpa [dbmN] using this

theorem dbmN_12 (y : Int) : dbmN y 12 = 365 + leapAdj y := by
  norm_num [dbmN, daysInMonth]
  ring

theorem daysBeforeMonth_upper {y m : Int} (h2 : m ≤ 12) :
    daysBeforeMonth y m + daysInMonth y m ≤ 365 + leapAdj y := by
  rcases Int.lt_or_le m 1 with h1 | h1
  · have := daysBeforeMonth_nonneg y m
    have hb := daysInMonth_bounds y m
    have := leapAdj_bounds y
    have hz : daysBeforeMonth y m = 0 := by
      unfold daysBeforeMonth
      have hz' : (m - 1).toNat = 0 := by omega
      rw [hz']; rfl
    omega
  · have hstep : daysBeforeMonth y m + daysInMonth y m = daysBeforeMonth y (m + 1) :=
      (daysBeforeMonth_step h1).symm
    rw [hstep]
    unfold daysBeforeMonth
    have h13 : (m + 1 - 1).toNat ≤ 12 := by omega
    have := dbmN_mono y h13
    rw [dbmN_12] at this
    omega

theorem daysBeforeMonth_mono {y m m' : Int} (h1 : 1 ≤ m) (hmm : m < m') :
    daysBeforeMonth y m + daysInMonth y m ≤ daysBeforeMonth y m' := by
  rw [← daysBeforeMonth_step h1]
  unfold daysBeforeMonth
  exact dbmN_mono y (by omega)

theorem daysBeforeYear_step (y : Int) :
    daysBeforeYear (y + 1) = daysBeforeYear y + 365 + leapAdj y := by
  unfold daysBeforeYear leapAdj IsLeap
  split_ifs <;> omega

theorem daysBeforeYear_mono {y y' : Int} (h : y < y') :
    daysBeforeYear y + 365 ≤ daysBeforeYear y' := by
  unfold daysBeforeYear
  omega

theorem toDays_lt_of_dlt {a b : Date} (ha : DValid a) (hb : DValid b) (h : dlt a b) :
    toDays a < toDays b := by
  obtain ⟨ham1, ham2, had1, had2⟩ := ha
  obtain ⟨hbm1, hbm2, hbd1, hbd2⟩ := hb
  rcases h with hy | ⟨hy, hm | ⟨hm, hd⟩⟩
  · have hA : toDays a < daysBeforeYear (a.y + 1) := by
      have hu := daysBeforeMonth_upper (y := a.y) ham2
      have hs := daysBeforeYear_step a.y
      unfold toDays
      omega
    have hB : daysBeforeYear (a.y + 1) ≤ daysBeforeYear b.y := by
      rcases eq_or_lt_of_le (show a.y + 1 ≤ b.y by omega) with h' | h'
      · rw [h']
      · have := daysBeforeYear_mono h'
        omega
    have hC : daysBeforeYear b.y ≤ toDays b := by
      have := daysBeforeMonth_nonneg b.y b.m
      unfold toDays
      omega
    omega
  · have hmono := daysBeforeMonth_mono (y := b.y) ham1 hm
    unfold toDays
    rw [hy]
    rw [hy] at had2
    omega
  · unfold toDays
    rw [hy, hm]
    omega

theorem dlt_trichotomy (a b : Date) : dlt a b ∨ a = b ∨ dlt b a := by
  obtain ⟨ay, am, ad⟩ := a
  obtain ⟨by', bm, bd⟩ := b
  unfold dlt
  simp only [Date.mk.injEq]
  omega

theorem dlt_irrefl (a : Date) : ¬ dlt a a := by unfold dlt; omega

theorem dlt_iff_toDays {a b : Date} (ha : DValid a) (hb : DValid b) :
    dlt a b ↔ toDays a < toDays b := by
  constructor
  · exact toDays_lt_of_dlt ha hb
  · intro h
    rcases dlt_trichotomy a b with h' | h' | h'
    · exact h'
    · subst h'; omega
    · have := toDays_lt_of_dlt hb ha h'
      omega

theorem DValid_mk (a b c : Int) :
    DValid ⟨a, b, c⟩ ↔ 1 ≤ b ∧ b ≤ 12 ∧ 1 ≤ c ∧ c ≤ daysInMonth a b := Iff.rfl

theorem toDays_mk (a b c : Int) :
    toDays ⟨a, b, c⟩ = daysBeforeYear a + daysBeforeMonth a b + (c - 1) := rfl

theorem daysBeforeMonth_13 (y : Int) :
    daysBeforeMonth y 12 + daysInMonth y 12 = 365 + leapAdj y := by
  rw [← daysBeforeMonth_step (by omega : (1:Int) ≤ 12)]
  show dbmN y (13 - 1 : Int).toNat = _
  norm_num
  exact dbmN_12 y

theorem daysBeforeMonth_one (y : Int) : daysBeforeMonth y 1 = 0 := rfl

theorem succD_valid {t : Date} (h : DValid t) : DValid (succD t) := by
  obtain ⟨Y, M, D⟩ := t
  rw [DValid_mk] at h
  obtain ⟨h1, h2, h3, h4⟩ := h
  unfold succD
  dsimp only
  split_ifs with hd hm
  · exact (DValid_mk _ _ _).2 ⟨h1, h2, by omega, by omega⟩
  · refine (DValid_mk _ _ _).2 ⟨by omega, by omega, by omega, ?_⟩
    have := daysInMonth_bounds Y (M + 1)
    omega
  · refine (DValid_mk _ _ _).2 ⟨by omega, by omega, by omega, ?_⟩
    have := daysInMonth_bounds (Y + 1) 1
    omega

theorem predD_valid {t : Date} (h : DValid t) : DValid (predD t) := by
  obtain ⟨Y, M, D⟩ := t
  rw [DValid_mk] at h
  obtain ⟨h1, h2, h3, h4⟩ := h
  unfold predD
  dsimp only
  split_ifs with hd hm
  · exact (DValid_mk _ _ _).2 ⟨h1, h2, by omega, by omega⟩
  · refine (DValid_mk _ _ _).2 ⟨by omega, by omega, ?_, by omega⟩
    have := daysInMonth_bounds Y (M - 1)
    omega
  · refine (DValid_mk _ _ _).2 ⟨by omega, by omega, by omega, ?_⟩
    have : daysInMonth (Y - 1) 12 = 31 := by
      unfold daysInMonth; split_ifs <;> omega
    omega

theorem toDays_succD {t : Date} (h : DValid t) : toDays (succD t) = toDays t + 1 := by
  obtain ⟨Y, M, D⟩ := t
  rw [DValid_mk] at h
  obtain ⟨h1, h2, h3, h4⟩ := h
  unfold succD
  dsimp only
  split_ifs with hd hm
  · simp only [toDays_mk]; omega
  · have := daysBeforeMonth_step (y := Y) h1
    simp only [toDays_mk, daysBeforeMonth_one]
    omega
  · have hm12 : M = 12 := by omega
    subst hm12
    have hstep := daysBeforeYear_step Y
    have hdbm := daysBeforeMonth_13 Y
    simp only [toDays_mk, daysBeforeMonth_one]
    omega

theorem toDays_predD {t : Date} (h : DValid t) : toDays (predD t) = toDays t - 1 := by
  obtain ⟨Y, M, D⟩ := t
  rw [DValid_mk] at h
  obtain ⟨h1, h2, h3, h4⟩ := h
  unfold predD
  dsimp only
  split_ifs with hd hm
  · simp only [toDays_mk]; omega
  · have := daysBeforeMonth_step (y := Y) (m := M - 1) (by omega)
    have hmm : M - 1 + 1 = M := by omega
    rw [hmm] at this
    simp only [toDays_mk]
    omega
  · have hm1 : M = 1 := by omega
    have hd1 : D = 1 := by omega
    subst hm1
    subst hd1
    have hstep := daysBeforeYear_step (Y - 1)
    have hyy : Y - 1 + 1 = Y := by omega
    rw [hyy] at hstep
    have hdim : daysInMonth (Y - 1) 12 = 31 := by
      unfold daysInMonth; split_ifs <;> omega
    have hdbm := daysBeforeMonth_13 (Y - 1)
    simp only [toDays_mk, daysBeforeMonth_one]
    omega

theorem succD_iter_spec {t : Date} (h : DValid t) (k : Nat) :
    DValid (succD^[k] t) ∧ toDays (succD^[k] t) = toDays t + k := by
  induction k with
  | zero =>
    constructor
    · simpa using h
    · simp
  | succ n ih =>
    rw [Function.iterate_succ_apply']
    refine ⟨succD_valid ih.1, ?_⟩
    rw [toDays_succD ih.1, ih.2]
    push_cast
    ring

theorem predD_iter_spec {t : Date} (h : DValid t) (k : Nat) :
    DValid (predD^[k] t) ∧ toDays (predD^[k] t) = toDays t - k := by
  induction k with
  | zero =>
    constructor
    · simpa using h
    · simp
  | succ n ih =>
    rw [Function.iterate_succ_apply']
    refine ⟨predD_valid ih.1, ?_⟩
    rw [toDays_predD ih.1, ih.2]
    push_cast
    ring

theorem addDays_valid {t : Date} (h : DValid t) (n : Int) : DValid (addDays t n) := by
  unfold addDays
  split_ifs with hn
  · exact (succD_iter_spec h _).1
  · exact (predD_iter_spec h _).1

theorem toDays_addDays {t : Date} (h : DValid t) (n : Int) :
    toDays (addDays t n) = toDays t + n := by
  unfold addDays
  split_ifs with hn
  · rw [(succD_iter_spec h _).2, Int.toNat_of_nonneg hn]
  · rw [(predD_iter_spec h _).2, Int.toNat_of_nonneg (by omega : (0:Int) ≤ -n)]
    omega

theorem addDays_zero (t : Date) : addDays t 0 = t := rfl

theorem addDays_add_of_nonneg (t : Date) {a b : Int} (ha : 0 ≤ a) (hb : 0 ≤ b) :
    addDays t (a + b) = addDays (addDays t a) b := by
  unfold addDays
  rw [if_pos (by omega : (0:Int) ≤ a + b), if_pos ha, if_pos hb]
  rw [Int.toNat_add ha hb, Nat.add_comm, Function.iterate_add_apply]

/-! ## The program: resolvers (`src/lib.rs`) -/

/-- The `chrono::Weekday` enumeration. -/
inductive Weekday
  | mon | tue | wed | thu | fri | sat | sun
  deriving DecidableEq

/-- Model of `Weekday::num_days_from_monday`. -/
def Weekday.ndfm : Weekday → Int
  | .mon => 0
  | .tue => 1
  | .wed => 2
  | .thu => 3
  | .fri => 4
  | .sat => 5
  | .sun => 6

/-- Model of `find_next_weekday`: offset of the target weekday from today, bumped
by 7 when zero or negative, added to today's date.  `noww` is the
`Local::now()` read this helper performs itself. -/
def find_next_weekday (weekday : Weekday) (noww : Date) : Date :=
  addDays noww
    (if weekday.ndfm - ndfmD noww ≤ 0
     then weekday.ndfm - ndfmD noww + 7
     else weekday.ndfm - ndfmD noww)

/-- Model of `find_weekday_offset`: the raw offset is bumped by 7 only when
`weeks_ahead == 0`; then `weeks_ahead * 7` days are added.  `noww` is the
`Local::now()` read this helper performs itself. -/
def find_weekday_offset (weekday : Weekday) (weeks_ahead : Int) (noww : Date) : Date :=
  addDays noww
    ((if weekday.ndfm - ndfmD noww ≤ 0 ∧ weeks_ahead = 0
      then weekday.ndfm - ndfmD noww + 7
      else weekday.ndfm - ndfmD noww) + weeks_ahead * 7)

/-- The error taxonomy, keyed by the distinct `anyhow!` messages of the
source (plus the `str::parse::<i64>` failure used by `?`). -/
inductive ParseError
  | invalidDate
  | invalidWeekday
  | invalidMonthName
  | invalidTimeUnit
  | noValidDateInRange
  | invalidDayForMonth
  | intOutOfRange
  | unrecognizedFormat
  deriving DecidableEq

/-- The `(year, month)` successor used by the wrap-around branches of
`find_next_occurrence_of_day` (`month += 1; if month > 12 …`). -/
def nextYM (y m : Int) : Int × Int :=
  if m + 1 > 12 then (y + 1, 1) else (y, m + 1)

/-- The `loop` of `find_next_occurrence_of_day`: try `(year, month, day)`,
else advance one month and fail once `year > start_year + 2`.  The fuel
only bounds the recursion depth; it exceeds the number of iterations the
`year > start_year + 2` guard allows, so the fuel-exhaustion branch
(returning the same error as the guard) is unreachable. -/
def searchDayLoop (day start_year : Int) : Int → Int → Nat → Except ParseError Date
  | _, _, 0 => .error .noValidDateInRange
  | y, m, fuel + 1 =>
    match fromYmd? y m day with
    | some date => .ok date
    | none =>
      let p := nextYM y m
      if p.1 > start_year + 2 then .error .noValidDateInRange
      else searchDayLoop day start_year p.1 p.2 fuel

/-- Model of `find_next_occurrence_of_day`: if today's day-of-month is at least the
requested day, start from next month, then walk forward month by month. -/
def find_next_occurrence_of_day (now : Date) (day : Int) : Except ParseError Date :=
  searchDayLoop day now.y
    (if now.d ≥ day then (nextYM now.y now.m).1 else now.y)
    (if now.d ≥ day then (nextYM now.y now.m).2 else now.m) 40

/-- Model of `find_next_occurrence`: this year's `(month, day)` if it exists and is
not before today, else next year's, else the day-does-not-exist error. -/
def find_next_occurrence (today : Date) (month day : Int) : Except ParseError Date :=
  let next_year : Except ParseError Date :=
    match fromYmd? (today.y + 1) month day with
    | some date => .ok date
    | none => .error .invalidDayForMonth
  match fromYmd? today.y month day with
  | some date => if dle today date then .ok date else next_year
  | none => next_year

/-- Model of the `.expect(…)` on the period-boundary constructors: the
`none` branch is a fatal invariant violation, proved unreachable below. -/
def expectD (o : Option Date) : Date := o.getD ⟨0, 1, 1⟩

/-- Model of `start_of_next_month`: the `month += 1; if month > 12 { year += 1;
month = 1 }` updates, written as two conditionals. -/
def start_of_next_month (now : Date) : Date :=
  expectD (fromYmd? (if now.m + 1 > 12 then now.y + 1 else now.y)
                    (if now.m + 1 > 12 then 1 else now.m + 1) 1)

/-- Model of `start_of_next_quarter`: `((month - 1) / 3 + 1) * 3 + 1`, with the
`if month > 12 { month -= 12; year += 1 }` wrap as two conditionals. -/
def start_of_next_quarter (now : Date) : Date :=
  expectD (fromYmd?
    (if ((now.m - 1) / 3 + 1) * 3 + 1 > 12 then now.y + 1 else now.y)
    (if ((now.m - 1) / 3 + 1) * 3 + 1 > 12 then ((now.m - 1) / 3 + 1) * 3 + 1 - 12
     else ((now.m - 1) / 3 + 1) * 3 + 1) 1)

/-- Model of `start_of_next_year`. -/
def start_of_next_year (now : Date) : Date :=
  expectD (fromYmd? (now.y + 1) 1 1)

/-- Model of `end_of_current_month`: the same next-month computation as
`start_of_next_month`, minus one day. -/
def end_of_current_month (now : Date) : Date :=
  addDays (expectD (fromYmd? (if now.m + 1 > 12 then now.y + 1 else now.y)
                             (if now.m + 1 > 12 then 1 else now.m + 1) 1)) (-1)

/-- Model of `end_of_current_quarter`: the same next-quarter computation as
`start_of_next_quarter`, minus one day. -/
def end_of_current_quarter (now : Date) : Date :=
  addDays (expectD (fromYmd?
    (if ((now.m - 1) / 3 + 1) * 3 + 1 > 12 then now.y + 1 else now.y)
    (if ((now.m - 1) / 3 + 1) * 3 + 1 > 12 then ((now.m - 1) / 3 + 1) * 3 + 1 - 12
     else ((now.m - 1) / 3 + 1) * 3 + 1) 1)) (-1)

/-- Model of `end_of_current_year`: January 1 of next year minus one day. -/
def end_of_current_year (now : Date) : Date :=
  addDays (expectD (fromYmd? (now.y + 1) 1 1)) (-1)

/-- Model of `end_of_next_month`: `month + 2` (wrapped) gives the first of the
month after next; minus one day. -/
def end_of_next_month (now : Date) : Date :=
  addDays (expectD (fromYmd? (if now.m + 2 > 12 then now.y + 1 else now.y)
                             (if now.m + 2 > 12 then now.m + 2 - 12 else now.m + 2) 1)) (-1)

/-- Model of `end_of_next_quarter`: quarter index plus two, split into year carry
and month. -/
def end_of_next_quarter (now : Date) : Date :=
  addDays (expectD (fromYmd? (now.y + ((now.m - 1) / 3 + 2) / 4)
                             ((((now.m - 1) / 3 + 2) % 4) * 3 + 1) 1)) (-1)

/-- Model of `end_of_next_year`: January 1 of year + 2 minus one day. -/
def end_of_next_year (now : Date) : Date :=
  addDays (expectD (fromYmd? (now.y + 2) 1 1)) (-1)

/-! ## The program: tables and shape matchers (`parse_date`) -/

/-- The weekday alternation `(monday|mon|…|sunday|sun)` shared by the bare
weekday match arms and the two weekday regexes. -/
def weekdayTable : List (List Char × Weekday) :=
  [(s2l "monday", .mon), (s2l "mon", .mon),
   (s2l "tuesday", .tue), (s2l "tue", .tue),
   (s2l "wednesday", .wed), (s2l "wed", .wed),
   (s2l "thursday", .thu), (s2l "thu", .thu),
   (s2l "friday", .fri), (s2l "fri", .fri),
   (s2l "saturday", .sat), (s2l "sat", .sat),
   (s2l "sunday", .sun), (s2l "sun", .sun)]

/-- The literal-keyword arms (`today`/`tod`/`now`, `yesterday`/`yes`,
`tomorrow`/`tom`), as day offsets from the current moment. -/
def keywordTable : List (List Char × Int) :=
  [(s2l "today", 0), (s2l "tod", 0), (s2l "now", 0),
   (s2l "yesterday", -1), (s2l "yes", -1),
   (s2l "tomorrow", 1), (s2l "tom", 1)]

/-- Model of `MONTH_MAP`: month-name lookup table. -/
def monthTable : List (List Char × Int) :=
  [(s2l "jan", 1), (s2l "january", 1),
   (s2l "feb", 2), (s2l "february", 2),
   (s2l "mar", 3), (s2l "march", 3),
   (s2l "apr", 4), (s2l "april", 4),
   (s2l "may", 5),
   (s2l "jun", 6), (s2l "june", 6),
   (s2l "jul", 7), (s2l "july", 7),
   (s2l "aug", 8), (s2l "august", 8),
   (s2l "sep", 9), (s2l "september", 9),
   (s2l "oct", 10), (s2l "october", 10),
   (s2l "nov", 11), (s2l "november", 11),
   (s2l "dec", 12), (s2l "december", 12)]

/-- Model of `parse_month`: table lookup, unknown names are `InvalidMonthName`. -/
def parse_month (l : List Char) : Except ParseError Int :=
  match lookupL monthTable l with
  | some m => .ok m
  | none => .error .invalidMonthName

/-- The relative-offset unit alternation with its day multiplier
(`Duration::days`, `Duration::weeks`, and the 30- and 365-day
approximations for months and years). -/
def unitTable : List (List Char × Int) :=
  [(s2l "d", 1), (s2l "day", 1), (s2l "days", 1),
   (s2l "w", 7), (s2l "wk", 7), (s2l "wks", 7), (s2l "week", 7), (s2l "weeks", 7),
   (s2l "m", 30), (s2l "mth", 30), (s2l "mths", 30), (s2l "month", 30), (s2l "months", 30),
   (s2l "y", 365), (s2l "yr", 365), (s2l "yrs", 365), (s2l "year", 365), (s2l "years", 365)]

/-- The ordinal suffix alternation `(st|nd|rd|th)`. -/
def suffixTable : List (List Char × Unit) :=
  [(s2l "st", ()), (s2l "nd", ()), (s2l "rd", ()), (s2l "th", ())]

/-- Value of `i64::MAX`, the bound of the `str::parse::<i64>()?` calls. -/
def i64Max : Int := 9223372036854775807

/-- Matcher for `DATE_REGEX_YMD`: four digits, separator, one or two
digits, separator, one or two digits, end of input. -/
def matchYmd (l : List Char) : Option (Int × Int × Int) :=
  let p1 := takeDigits l
  if p1.1.length = 4 then
    match p1.2 with
    | s1 :: r1 =>
      if isSepC s1 then
        let p2 := takeDigits r1
        if 1 ≤ p2.1.length ∧ p2.1.length ≤ 2 then
          match p2.2 with
          | s2 :: r2 =>
            if isSepC s2 then
              let p3 := takeDigits r2
              if (1 ≤ p3.1.length ∧ p3.1.length ≤ 2) ∧ p3.2 = [] then
                some ((valD p1.1 : Int), (valD p2.1 : Int), (valD p3.1 : Int))
              else none
            else none
          | [] => none
        else none
      else none
    | [] => none
  else none

/-- Matcher for `DATE_REGEX_DMY`: one or two digits, separator, one or two
digits, separator, four digits, end of input. -/
def matchDmy (l : List Char) : Option (Int × Int × Int) :=
  let p1 := takeDigits l
  if 1 ≤ p1.1.length ∧ p1.1.length ≤ 2 then
    match p1.2 with
    | s1 :: r1 =>
      if isSepC s1 then
        let p2 := takeDigits r1
        if 1 ≤ p2.1.length ∧ p2.1.length ≤ 2 then
          match p2.2 with
          | s2 :: r2 =>
            if isSepC s2 then
              let p3 := takeDigits r2
              if p3.1.length = 4 ∧ p3.2 = [] then
                some ((valD p1.1 : Int), (valD p2.1 : Int), (valD p3.1 : Int))
              else none
            else none
          | [] => none
        else none
      else none
    | [] => none
  else none

/-- Matcher for `NUMBERED_WEEKDAY_REGEX`: digits then a weekday name. -/
def matchNumberedWd (l : List Char) : Option (List Char × Weekday) :=
  let p := takeDigits l
  if p.1.length = 0 then none
  else
    match lookupL weekdayTable p.2 with
    | some wd => some (p.1, wd)
    | none => none

/-- Matcher for `ORDINAL_DATE_REGEX`: one or two digits then an ordinal
suffix, end of input. -/
def matchOrdinal (l : List Char) : Option (List Char) :=
  let p := takeDigits l
  if 1 ≤ p.1.length ∧ p.1.length ≤ 2 then
    match lookupL suffixTable p.2 with
    | some _ => some p.1
    | none => none
  else none

/-- Matcher for `RELATIVE_TIME_REGEX`: optional minus sign, digits, then a
unit from the alternation, end of input; yields the sign, the digit run
and the unit's day multiplier. -/
def matchRelative (l : List Char) : Option (Bool × List Char × Int) :=
  let sp : Bool × List Char :=
    match l with
    | '-' :: r => (true, r)
    | _ => (false, l)
  let p := takeDigits sp.2
  if p.1.length = 0 then none
  else
    match lookupL unitTable p.2 with
    | some mult => some (sp.1, p.1, mult)
    | none => none

/-- Matcher for `DAY_MONTH_REGEX`: one or two digits, separator, letters,
end of input. -/
def matchDayMonth (l : List Char) : Option (List Char × List Char) :=
  let p1 := takeDigits l
  if 1 ≤ p1.1.length ∧ p1.1.length ≤ 2 then
    match p1.2 with
    | s1 :: r1 =>
      if isSepC s1 then
        let p2 := takeAlpha r1
        if 1 ≤ p2.1.length ∧ p2.2 = [] then some (p1.1, p2.1) else none
      else none
    | [] => none
  else none

/-- Matcher for `MONTH_DAY_REGEX`: letters, separator, one or two digits,
end of input. -/
def matchMonthDay (l : List Char) : Option (List Char × List Char) :=
  let p1 := takeAlpha l
  if 1 ≤ p1.1.length then
    match p1.2 with
    | s1 :: r1 =>
      if isSepC s1 then
        let p2 := takeDigits r1
        if (1 ≤ p2.1.length ∧ p2.1.length ≤ 2) ∧ p2.2 = [] then
          some (p1.1, p2.1)
        else none
      else none
    | [] => none
  else none

/-- Matcher for `FULL_DATE_ALPHA_DMY`: one or two digits, separator,
letters, separator, four digits, end of input. -/
def matchAlphaDmy (l : List Char) : Option (List Char × List Char × List Char) :=
  let p1 := takeDigits l
  if 1 ≤ p1.1.length ∧ p1.1.length ≤ 2 then
    match p1.2 with
    | s1 :: r1 =>
      if isSepC s1 then
        let p2 := takeAlpha r1
        if 1 ≤ p2.1.length then
          match p2.2 with
          | s2 :: r2 =>
            if isSepC s2 then
              let p3 := takeDigits r2
              if p3.1.length = 4 ∧ p3.2 = [] then some (p1.1, p2.1, p3.1) else none
            else none
          | [] => none
        else none
      else none
    | [] => none
  else none

/-- Matcher for `FULL_DATE_ALPHA_YMD`: four digits, separator, letters,
separator, one or two digits, end of input. -/
def matchAlphaYmd (l : List Char) : Option (List Char × List Char × List Char) :=
  let p1 := takeDigits l
  if p1.1.length = 4 then
    match p1.2 with
    | s1 :: r1 =>
      if isSepC s1 then
        let p2 := takeAlpha r1
        if 1 ≤ p2.1.length then
          match p2.2 with
          | s2 :: r2 =>
            if isSepC s2 then
              let p3 := takeDigits r2
              if (1 ≤ p3.1.length ∧ p3.1.length ≤ 2) ∧ p3.2 = [] then
                some (p1.1, p2.1, p3.1)
              else none
            else none
          | [] => none
        else none
      else none
    | [] => none
  else none

/-- Matcher for `SHORT_DATE_REGEX`: one or two digits, separator, one or
two digits, end of input. -/
def matchShort (l : List Char) : Option (List Char × List Char) :=
  let p1 := takeDigits l
  if 1 ≤ p1.1.length ∧ p1.1.length ≤ 2 then
    match p1.2 with
    | s1 :: r1 =>
      if isSepC s1 then
        let p2 := takeDigits r1
        if (1 ≤ p2.1.length ∧ p2.1.length ≤ 2) ∧ p2.2 = [] then
          some (p1.1, p2.1)
        else none
      else none
    | [] => none
  else none

/-- Chains a cascade stage (`none` = this pattern did not decide the
input, keep falling through) with the rest of the cascade. -/
def orElseO {X : Type} (a : Option X) (b : Unit → X) : X :=
  match a with
  | some x => x
  | none => b ()

/-- Cascade stage 1/2, the numeric `YMD`/`DMY` regexes: on a shape match
the source runs `if let Ok(date) = from_ymd_opt(…).ok_or_else(…)` — a
constructed "Invalid date" error is silently discarded and control FALLS
THROUGH to the next pattern (modeled by `none` here). -/
def stageNumericDate (caps : Option (Int × Int × Int)) : Option (Except ParseError Date) :=
  caps.bind fun c => (fromYmd? c.1 c.2.1 c.2.2).map .ok

/-- Cascade stage 3, the literal keyword arms, as day offsets applied to
the moment read at the top of `parse_date`. -/
def stageKeyword (input : List Char) (now : Date) : Option (Except ParseError Date) :=
  (lookupL keywordTable input).map fun off => .ok (addDays now off)

/-- Cascade stage 4, the bare weekday arms. -/
def stageBareWd (input : List Char) (noww : Date) : Option (Except ParseError Date) :=
  (lookupL weekdayTable input).map fun wd => .ok (find_next_weekday wd noww)

/-- Cascade stage 5, `NEXT_WEEKDAY_REGEX` (`n` + weekday name):
dispatches to `find_weekday_offset` with `weeks_ahead = 1`. -/
def stageNextWd (input : List Char) (noww : Date) : Option (Except ParseError Date) :=
  match input with
  | 'n' :: rest =>
    (lookupL weekdayTable rest).map fun wd => .ok (find_weekday_offset wd 1 noww)
  | _ => none

/-- Cascade stage 6, `NUMBERED_WEEKDAY_REGEX` (digits + weekday name):
`caps[1].parse::<i64>()?` then `find_weekday_offset`. -/
def stageNumberedWd (input : List Char) (noww : Date) : Option (Except ParseError Date) :=
  (matchNumberedWd input).map fun p =>
    if (valD p.1 : Int) > i64Max then .error .intOutOfRange
    else .ok (find_weekday_offset p.2 (valD p.1) noww)

/-- The business-period marker arms, each resolving against the relevant
clock read (`now` from `parse_date`, `noww` from inside
`find_next_weekday` for the week-based markers). -/
def markerTable : List (List Char × (Date → Date → Date)) :=
  [(s2l "sow", fun _ noww => find_next_weekday .mon noww),
   (s2l "soww", fun _ noww => find_next_weekday .mon noww),
   (s2l "som", fun now _ => start_of_next_month now),
   (s2l "soq", fun now _ => start_of_next_quarter now),
   (s2l "soy", fun now _ => start_of_next_year now),
   (s2l "eow", fun _ noww => addDays (find_next_weekday .mon noww) (-1)),
   (s2l "eoww", fun _ noww => find_next_weekday .sat noww),
   (s2l "eom", fun now _ => end_of_current_month now),
   (s2l "eoq", fun now _ => end_of_current_quarter now),
   (s2l "eoy", fun now _ => end_of_current_year now),
   (s2l "eonw", fun _ noww => addDays (find_next_weekday .mon noww) 6),
   (s2l "eonm", fun now _ => end_of_next_month now),
   (s2l "eonq", fun now _ => end_of_next_quarter now),
   (s2l "eony", fun now _ => end_of_next_year now)]

/-- Cascade stage 7, the period-marker arms. -/
def stageMarker (input : List Char) (now noww : Date) : Option (Except ParseError Date) :=
  (lookupL markerTable input).map fun f => .ok (f now noww)

/-- Cascade stage 8, `ORDINAL_DATE_REGEX`: on a match, resolve only when
the numeral is at most 31; a larger numeral has no `else` in the source
and FALLS THROUGH. -/
def stageOrdinal (input : List Char) (now : Date) : Option (Except ParseError Date) :=
  (matchOrdinal input).bind fun ds =>
    if (valD ds : Int) ≤ 31 then some (find_next_occurrence_of_day now (valD ds)) else none

/-- Cascade stage 9, `RELATIVE_TIME_REGEX`: `caps[1].parse::<i64>()?`,
then the unit's day multiplier applied to the current date. -/
def stageRelative (input : List Char) (now : Date) : Option (Except ParseError Date) :=
  (matchRelative input).map fun p =>
    let n : Int := if p.1 then -(valD p.2.1 : Int) else (valD p.2.1 : Int)
    if n < -i64Max - 1 ∨ n > i64Max then .error .intOutOfRange
    else .ok (addDays now (n * p.2.2))

/-- Cascade stage 10, `DAY_MONTH_REGEX`: `parse_month` failures propagate
via `?`; otherwise `find_next_occurrence`. -/
def stageDayMonth (input : List Char) (now : Date) : Option (Except ParseError Date) :=
  (matchDayMonth input).map fun p =>
    match parse_month p.2 with
    | .ok m => find_next_occurrence now m (valD p.1)
    | .error e => .error e

/-- Cascade stage 11, `MONTH_DAY_REGEX`. -/
def stageMonthDay (input : List Char) (now : Date) : Option (Except ParseError Date) :=
  (matchMonthDay input).map fun p =>
    match parse_month p.1 with
    | .ok m => find_next_occurrence now m (valD p.2)
    | .error e => .error e

/-- Cascade stage 12, `FULL_DATE_ALPHA_DMY`: here the `from_ymd_opt`
failure is propagated (`.ok_or_else(…)?`), not swallowed. -/
def stageAlphaDmy (input : List Char) : Option (Except ParseError Date) :=
  (matchAlphaDmy input).map fun p =>
    match parse_month p.2.1 with
    | .ok m =>
      match fromYmd? (valD p.2.2) m (valD p.1) with
      | some t => .ok t
      | none => .error .invalidDate
    | .error e => .error e

/-- Cascade stage 13, `FULL_DATE_ALPHA_YMD`. -/
def stageAlphaYmd (input : List Char) : Option (Except ParseError Date) :=
  (matchAlphaYmd input).map fun p =>
    match parse_month p.2.1 with
    | .ok m =>
      match fromYmd? (valD p.1) m (valD p.2.2) with
      | some t => .ok t
      | none => .error .invalidDate
    | .error e => .error e

/-- Cascade stage 14, `SHORT_DATE_REGEX`: first capture is the day,
second the month. -/
def stageShort (input : List Char) (now : Date) : Option (Except ParseError Date) :=
  (matchShort input).map fun p =>
    find_next_occurrence now (valD p.2) (valD p.1)

/-- Body of `parse_date`: trim and lowercase, then try the patterns in the exact
priority order of the source; the first stage that decides the input
wins, and an input deciding no stage is `UnrecognizedFormat`.  `now` is
the `Local::now()` read at the top of `parse_date`; `noww` is the
`Local::now()` read performed inside `find_next_weekday` /
`find_weekday_offset` when one of them is reached. -/
def parse_date_core (input : List Char) (now noww : Date) : Except ParseError Date :=
  orElseO (stageNumericDate (matchYmd input)) fun _ =>
  orElseO (stageNumericDate ((matchDmy input).map fun c => (c.2.2, c.2.1, c.1))) fun _ =>
  orElseO (stageKeyword input now) fun _ =>
  orElseO (stageBareWd input noww) fun _ =>
  orElseO (stageNextWd input noww) fun _ =>
  orElseO (stageNumberedWd input noww) fun _ =>
  orElseO (stageMarker input now noww) fun _ =>
  orElseO (stageOrdinal input now) fun _ =>
  orElseO (stageRelative input now) fun _ =>
  orElseO (stageDayMonth input now) fun _ =>
  orElseO (stageMonthDay input now) fun _ =>
  orElseO (stageAlphaDmy input) fun _ =>
  orElseO (stageAlphaYmd input) fun _ =>
  orElseO (stageShort input now) fun _ =>
  .error .unrecognizedFormat

/-- Model of `parse_date`: `let input = date_str.trim().to_lowercase()`, then the
cascade. -/
def parse_date (raw : List Char) (now noww : Date) : Except ParseError Date :=
  parse_date_core (normalizeInput raw) now noww

/-! ## Scanner and table lemmas -/

/-- Head-is-digit test for the rest of an input. -/
def headDigitB : List Char → Bool
  | [] => false
  | c :: _ => isDigitC c

/-- Head-is-letter test. -/
def headAlphaB : List Char → Bool
  | [] => false
  | c :: _ => isAlphaC c

/-- Head-is-separator test. -/
def headSepB : List Char → Bool
  | [] => false
  | c :: _ => isSepC c

theorem takeDigits_app {ds r : List Char} (hds : ∀ c ∈ ds, isDigitC c = true)
    (hr : headDigitB r = false) : takeDigits (ds ++ r) = (ds, r) := by
  induction ds with
  | nil =>
    cases r with
    | nil => rfl
    | cons c t =>
      simp only [headDigitB] at hr
      simp [takeDigits, hr]
  | cons c t ih =>
    have hc := hds c (List.mem_cons_self c t)
    have ht : ∀ x ∈ t, isDigitC x = true := fun x hx => hds x (List.mem_cons_of_mem c hx)
    simp [takeDigits, hc, ih ht]

theorem takeAlpha_app {ds r : List Char} (hds : ∀ c ∈ ds, isAlphaC c = true)
    (hr : headAlphaB r = false) : takeAlpha (ds ++ r) = (ds, r) := by
  induction ds with
  | nil =>
    cases r with
    | nil => rfl
    | cons c t =>
      simp only [headAlphaB] at hr
      simp [takeAlpha, hr]
  | cons c t ih =>
    have hc := hds c (List.mem_cons_self c t)
    have ht : ∀ x ∈ t, isAlphaC x = true := fun x hx => hds x (List.mem_cons_of_mem c hx)
    simp [takeAlpha, hc, ih ht]

theorem takeDigits_notDigit {l : List Char} (h : headDigitB l = false) :
    takeDigits l = ([], l) := by
  cases l with
  | nil => rfl
  | cons c t =>
    simp only [headDigitB] at h
    simp [takeDigits, h]

theorem takeAlpha_notAlpha {l : List Char} (h : headAlphaB l = false) :
    takeAlpha l = ([], l) := by
  cases l with
  | nil => rfl
  | cons c t =>
    simp only [headAlphaB] at h
    simp [takeAlpha, h]

theorem lookupL_none {α : Type} {tbl : List (List Char × α)} {k : List Char}
    (h : ∀ p ∈ tbl, k ≠ p.1) : lookupL tbl k = none := by
  induction tbl with
  | nil => rfl
  | cons p t ih =>
    obtain ⟨k', v⟩ := p
    have h1 := h (k', v) (List.mem_cons_self _ _)
    simp only [lookupL]
    rw [if_neg h1]
    exact ih fun q hq => h q (List.mem_cons_of_mem _ hq)

theorem lookupL_mem {α : Type} {tbl : List (List Char × α)} {k : List Char} {v : α}
    (h : lookupL tbl k = some v) : (k, v) ∈ tbl := by
  induction tbl with
  | nil => exact absurd h (by simp [lookupL])
  | cons p t ih =>
    obtain ⟨k', v'⟩ := p
    simp only [lookupL] at h
    by_cases hk : k = k'
    · rw [if_pos hk] at h
      injection h with h
      subst hk
      subst h
      exact List.mem_cons_self _ _
    · rw [if_neg hk] at h
      exact List.mem_cons_of_mem _ (ih h)

theorem lookupL_none_headNotAlpha {α : Type} {tbl : List (List Char × α)}
    (htbl : ∀ p ∈ tbl, headAlphaB p.1 = true) {k : List Char}
    (hk : headAlphaB k = false) : lookupL tbl k = none := by
  apply lookupL_none
  intro p hp h
  rw [h] at hk
  rw [htbl p hp] at hk
  exact absurd hk (by simp)

theorem lookupL_none_memDash {α : Type} {tbl : List (List Char × α)}
    (htbl : ∀ p ∈ tbl, '-' ∉ p.1) {k : List Char}
    (hk : '-' ∈ k) : lookupL tbl k = none := by
  apply lookupL_none
  intro p hp h
  exact htbl p hp (h ▸ hk)

/-! Table facts, each checked by evaluation over the concrete tables. -/

theorem keywordTable_keys :
    ∀ p ∈ keywordTable, headAlphaB p.1 = true ∧ '-' ∉ p.1 := by decide

theorem weekdayTable_keys :
    ∀ p ∈ weekdayTable, headAlphaB p.1 = true ∧ '-' ∉ p.1 := by decide

theorem markerTable_keys :
    ∀ p ∈ markerTable, headAlphaB p.1 = true ∧ '-' ∉ p.1 := by decide

theorem unitTable_keys :
    ∀ p ∈ unitTable,
      (∀ c ∈ p.1, isAlphaC c = true ∧ isWhiteC c = false ∧ lowerC c = c) ∧
      headAlphaB p.1 = true ∧ '-' ∉ p.1 ∧ 1 ≤ p.2 := by decide

theorem suffixTable_keys :
    ∀ p ∈ suffixTable,
      (∀ c ∈ p.1, isAlphaC c = true ∧ isWhiteC c = false ∧ lowerC c = c) ∧
      headAlphaB p.1 = true ∧ '-' ∉ p.1 := by decide

theorem monthTable_keys :
    ∀ p ∈ monthTable,
      (∀ c ∈ p.1, isAlphaC c = true ∧ isWhiteC c = false ∧ lowerC c = c) ∧
      headAlphaB p.1 = true ∧ '-' ∉ p.1 ∧ p.1 ≠ [] ∧ 1 ≤ p.2 ∧ p.2 ≤ 12 := by decide

theorem unitTable_self : ∀ p ∈ unitTable, lookupL unitTable p.1 = some p.2 := by decide

theorem monthTable_self : ∀ p ∈ monthTable, lookupL monthTable p.1 = some p.2 := by decide

theorem unitTable_not_weekday : ∀ p ∈ unitTable, lookupL weekdayTable p.1 = none := by decide

theorem unitTable_not_suffix : ∀ p ∈ unitTable, lookupL suffixTable p.1 = none := by decide

theorem suffixTable_not_weekday : ∀ p ∈ suffixTable, lookupL weekdayTable p.1 = none := by decide

theorem suffixTable_not_unit : ∀ p ∈ suffixTable, lookupL unitTable p.1 = none := by decide

/-! ## The normalization fixed point -/

theorem dropWhile_all_false {p : Char → Bool} {l : List Char}
    (h : ∀ c ∈ l, p c = false) : l.dropWhile p = l := by
  cases l with
  | nil => rfl
  | cons c t => simp [List.dropWhile, h c (List.mem_cons_self c t)]

theorem map_id_of_fixed {f : Char → Char} {l : List Char}
    (h : ∀ c ∈ l, f c = c) : l.map f = l := by
  induction l with
  | nil => rfl
  | cons c t ih =>
    simp [h c (List.mem_cons_self c t), ih fun x hx => h x (List.mem_cons_of_mem c hx)]

theorem normalizeInput_fixed {l : List Char}
    (h : ∀ c ∈ l, isWhiteC c = false ∧ lowerC c = c) : normalizeInput l = l := by
  unfold normalizeInput
  rw [dropWhile_all_false fun c hc => (h c hc).1]
  rw [dropWhile_all_false fun c hc => (h c (List.mem_reverse.1 hc)).1]
  rw [List.reverse_reverse]
  exact map_id_of_fixed fun c hc => (h c hc).2

theorem keep_of_digit {c : Char} (h : isDigitC c = true) :
    isWhiteC c = false ∧ lowerC c = c := by
  have hn : 48 ≤ c.toNat ∧ c.toNat ≤ 57 := by
    unfold isDigitC at h
    simpa using h
  constructor
  · unfold isWhiteC
    have h1 : c ≠ ' ' := by intro h'; subst h'; exact absurd hn (by decide)
    have h2 : c ≠ '\t' := by intro h'; subst h'; exact absurd hn (by decide)
    have h3 : c ≠ '\n' := by intro h'; subst h'; exact absurd hn (by decide)
    have h4 : c ≠ '\r' := by intro h'; subst h'; exact absurd hn (by decide)
    simp [h1, h2, h3, h4]
  · unfold lowerC
    rw [if_neg (by omega)]

theorem keep_of_dash : isWhiteC '-' = false ∧ lowerC '-' = '-' := by decide

/-! ## Weekday resolver lemmas -/

theorem ndfmD_bounds (t : Date) : 0 ≤ ndfmD t ∧ ndfmD t < 7 := by
  unfold ndfmD; omega

theorem weekday_ndfm_bounds (w : Weekday) : 0 ≤ w.ndfm ∧ w.ndfm ≤ 6 := by
  cases w <;> simp [Weekday.ndfm]

theorem find_next_weekday_valid (wd : Weekday) {noww : Date} (h : DValid noww) :
    DValid (find_next_weekday wd noww) := by
  unfold find_next_weekday
  exact addDays_valid h _

theorem find_next_weekday_spec (wd : Weekday) {noww : Date} (h : DValid noww) :
    ∃ k : Int,
      find_next_weekday wd noww = addDays noww k ∧ 1 ≤ k ∧ k ≤ 7 ∧
      ndfmD (addDays noww k) = wd.ndfm ∧
      (ndfmD noww = wd.ndfm → k = 7) := by
  have hw := weekday_ndfm_bounds wd
  have hn := ndfmD_bounds noww
  refine ⟨_, rfl, ?_, ?_, ?_, ?_⟩
  · split_ifs <;> omega
  · split_ifs <;> omega
  · unfold ndfmD
    rw [toDays_addDays h]
    split_ifs <;> omega
  · intro he
    rw [he]
    rw [if_pos (by omega)]
    omega

theorem find_weekday_offset_one (wd : Weekday) (noww : Date) :
    find_weekday_offset wd 1 noww = addDays noww (wd.ndfm - ndfmD noww + 7) := by
  unfold find_weekday_offset
  rw [if_neg (by omega)]
  norm_num

theorem next_weekday_vs_bare (wd : Weekday) (noww : Date) :
    (0 < wd.ndfm - ndfmD noww →
      find_weekday_offset wd 1 noww = addDays (find_next_weekday wd noww) 7) ∧
    (wd.ndfm - ndfmD noww ≤ 0 →
      find_weekday_offset wd 1 noww = find_next_weekday wd noww) := by
  constructor
  · intro hpos
    rw [find_weekday_offset_one]
    unfold find_next_weekday
    rw [if_neg (by omega)]
    rw [← addDays_add_of_nonneg _ (by omega) (by omega : (0:Int) ≤ 7)]
  · intro hle
    rw [find_weekday_offset_one]
    unfold find_next_weekday
    rw [if_pos hle]

/-! ## Claim C1 -/

/-- C1: the claim says a YMD-shaped input with an invalid payload such as
"2024-02-30" must produce the YMD resolver's own `InvalidCalendarDate`
error; the code instead discards the error built by
`.ok_or_else(|| anyhow!("Invalid date"))` (the `if let Ok` pattern), falls
through every remaining pattern (none of which can match a YMD shape) and
reports the generic `UnrecognizedFormat`.  This theorem documents the
code's actual behavior on the claim's own example: the shape matches, the
payload is calendar-invalid, and the result is `UnrecognizedFormat`. -/
theorem c1_ymd_invalid_falls_to_unrecognized :
    ∀ now noww : Date,
      parse_date (s2l "2024-02-30") now noww = .error .unrecognizedFormat ∧
      matchYmd (normalizeInput (s2l "2024-02-30")) = some (2024, 2, 30) ∧
      fromYmd? 2024 2 30 = none :=
  fun _ _ => ⟨rfl, by decide, by decide⟩

/-! ## Claim C5 -/

/-- C5 counterexample: the current moment is NOT captured exactly once.
`parse_date` reads the clock once at the top, and `find_next_weekday`
reads it again; with the first read on Monday 2024-01-01 the result of
"tuesday" depends on the second read, so parse is not a function of the
input text and the moment captured at the start of the resolution. -/
theorem c5_counterexample_second_clock_read :
    parse_date (s2l "tuesday") ⟨2024, 1, 1⟩ ⟨2024, 1, 1⟩ = .ok ⟨2024, 1, 2⟩ ∧
    parse_date (s2l "tuesday") ⟨2024, 1, 1⟩ ⟨2024, 1, 2⟩ = .ok ⟨2024, 1, 9⟩ ∧
    (⟨2024, 1, 2⟩ : Date) ≠ ⟨2024, 1, 9⟩ :=
  ⟨rfl, rfl, by decide⟩

/-- C5 (amended): parse is a deterministic pure function of the input
text and the clock readings it performs — one read in `parse_date` itself
and one read inside the weekday resolvers.  Two runs that agree on both
readings (in particular, two runs during which the clock does not tick)
return identical results. -/
theorem c5_parse_deterministic (input : List Char) (n0 n1 m0 m1 : Date)
    (h0 : n0 = m0) (h1 : n1 = m1) :
    parse_date input n0 n1 = parse_date input m0 m1 := by
  subst h0
  subst h1
  rfl

theorem c5_parse_deterministic_witness :
    (⟨2024, 1, 1⟩ : Date) = ⟨2024, 1, 1⟩ ∧
    parse_date (s2l "5d") ⟨2024, 1, 1⟩ ⟨2024, 1, 1⟩
      = parse_date (s2l "5d") ⟨2024, 1, 1⟩ ⟨2024, 1, 1⟩ :=
  ⟨rfl, c5_parse_deterministic (s2l "5d") ⟨2024, 1, 1⟩ ⟨2024, 1, 1⟩ ⟨2024, 1, 1⟩ ⟨2024, 1, 1⟩
    rfl rfl⟩

/-! ## Claim C3 -/

/-- C3: for every weekday name, `n<name>` and `1<name>` parse identically:
the `NEXT_WEEKDAY_REGEX` arm calls `find_weekday_offset(wd, 1)` and the
`NUMBERED_WEEKDAY_REGEX` arm parses "1" and calls the same
`find_weekday_offset(wd, 1)`, so the two code paths are extensionally
equal. -/
theorem c3_next_equals_one_weekday :
    ∀ p ∈ weekdayTable, ∀ now noww : Date,
      parse_date ('n' :: p.1) now noww = parse_date ('1' :: p.1) now noww := by
  intro p hp now noww
  fin_cases hp <;> rfl

theorem c3_next_equals_one_weekday_witness :
    ((s2l "friday", Weekday.fri) ∈ weekdayTable) ∧
    parse_date ('n' :: s2l "friday") ⟨2024, 1, 1⟩ ⟨2024, 1, 1⟩
      = parse_date ('1' :: s2l "friday") ⟨2024, 1, 1⟩ ⟨2024, 1, 1⟩ :=
  ⟨by decide,
   c3_next_equals_one_weekday (s2l "friday", Weekday.fri) (by decide) ⟨2024, 1, 1⟩ ⟨2024, 1, 1⟩⟩

/-! ## Claim C4 -/

/-- C4: a bare weekday name resolves via `find_next_weekday` to a date
`k` days ahead with `1 ≤ k ≤ 7`, strictly after today, falling on the
requested weekday, and `k = 7` exactly when today already is that weekday
(the never-today rule). -/
theorem c4_bare_weekday_never_today :
    ∀ p ∈ weekdayTable, ∀ now : Date, DValid now →
      ∃ k : Int,
        parse_date p.1 now now = .ok (addDays now k) ∧
        1 ≤ k ∧ k ≤ 7 ∧
        dlt now (addDays now k) ∧
        ndfmD (addDays now k) = p.2.ndfm ∧
        (ndfmD now = p.2.ndfm → k = 7) := by
  intro p hp now h
  have hred : parse_date p.1 now now = .ok (find_next_weekday p.2 now) := by
    fin_cases hp <;> rfl
  obtain ⟨k, hk, h1, h7, hwk, hself⟩ := find_next_weekday_spec p.2 h
  have hdlt : dlt now (addDays now k) := by
    rw [dlt_iff_toDays h (addDays_valid h k), toDays_addDays h]
    omega
  refine ⟨k, ?_, h1, h7, hdlt, hwk, hself⟩
  rw [hred, hk]

theorem c4_bare_weekday_never_today_witness :
    ((s2l "wednesday", Weekday.wed) ∈ weekdayTable) ∧ DValid ⟨2024, 1, 1⟩ ∧
    (∃ k : Int,
      parse_date (s2l "wednesday", Weekday.wed).1 ⟨2024, 1, 1⟩ ⟨2024, 1, 1⟩
        = .ok (addDays ⟨2024, 1, 1⟩ k) ∧
      1 ≤ k ∧ k ≤ 7 ∧
      dlt ⟨2024, 1, 1⟩ (addDays ⟨2024, 1, 1⟩ k) ∧
      ndfmD (addDays ⟨2024, 1, 1⟩ k) = (s2l "wednesday", Weekday.wed).2.ndfm ∧
      (ndfmD ⟨2024, 1, 1⟩ = (s2l "wednesday", Weekday.wed).2.ndfm → k = 7)) :=
  ⟨by decide, by decide,
   c4_bare_weekday_never_today (s2l "wednesday", Weekday.wed) (by decide)
     ⟨2024, 1, 1⟩ (by decide)⟩

/-! ## Claim C2 -/

/-- C2 counterexample: on Monday 2024-01-01, `nmonday` and `monday` both
resolve to 2024-01-08, so `parse("n" + w)` is NOT always `parse(w)` plus
7 days (that would be 2024-01-15). -/
theorem c2_counterexample_nmonday_on_monday :
    parse_date (s2l "nmonday") ⟨2024, 1, 1⟩ ⟨2024, 1, 1⟩ = .ok ⟨2024, 1, 8⟩ ∧
    parse_date (s2l "monday") ⟨2024, 1, 1⟩ ⟨2024, 1, 1⟩ = .ok ⟨2024, 1, 8⟩ ∧
    addDays ⟨2024, 1, 8⟩ 7 = ⟨2024, 1, 15⟩ ∧
    ((⟨2024, 1, 8⟩ : Date) ≠ ⟨2024, 1, 15⟩) :=
  ⟨rfl, rfl, by decide, by decide⟩

/-- C2 (amended): `find_weekday_offset(wd, 1)` adds 7 days to the RAW
weekday offset, so `n<weekday>` is one full week after the bare
occurrence exactly when the requested weekday is strictly later in the
Monday-based week than today's; when the raw offset is zero or negative
(today's weekday or an earlier one), `n<weekday>` coincides with the bare
occurrence. -/
theorem c2_next_weekday_amended :
    ∀ p ∈ weekdayTable, ∀ now : Date, DValid now →
      ∃ b : Date,
        parse_date p.1 now now = .ok b ∧
        parse_date ('n' :: p.1) now now =
          .ok (if 0 < p.2.ndfm - ndfmD now then addDays b 7 else b) := by
  intro p hp now h
  have hbare : parse_date p.1 now now = .ok (find_next_weekday p.2 now) := by
    fin_cases hp <;> rfl
  have hnw : parse_date ('n' :: p.1) now now = .ok (find_weekday_offset p.2 1 now) := by
    fin_cases hp <;> rfl
  refine ⟨find_next_weekday p.2 now, hbare, ?_⟩
  rw [hnw]
  obtain ⟨hpos, hle⟩ := next_weekday_vs_bare p.2 now
  split_ifs with hcond
  · rw [hpos hcond]
  · rw [hle (by omega)]

theorem c2_next_weekday_amended_witness :
    ((s2l "tuesday", Weekday.tue) ∈ weekdayTable) ∧ DValid ⟨2024, 1, 1⟩ ∧
    (∃ b : Date,
      parse_date (s2l "tuesday", Weekday.tue).1 ⟨2024, 1, 1⟩ ⟨2024, 1, 1⟩ = .ok b ∧
      parse_date ('n' :: (s2l "tuesday", Weekday.tue).1) ⟨2024, 1, 1⟩ ⟨2024, 1, 1⟩ =
        .ok (if 0 < (s2l "tuesday", Weekday.tue).2.ndfm - ndfmD ⟨2024, 1, 1⟩
             then addDays b 7 else b)) :=
  ⟨by decide, by decide,
   c2_next_weekday_amended (s2l "tuesday", Weekday.tue) (by decide) ⟨2024, 1, 1⟩ (by decide)⟩

/-! ## Claim C10 -/

theorem month_first_valid (y : Int) {m : Int} (h1 : 1 ≤ m) (h2 : m ≤ 12) :
    expectD (fromYmd? y m 1) = ⟨y, m, 1⟩ ∧ DValid ⟨y, m, 1⟩ := by
  have hv : DValid ⟨y, m, 1⟩ := by
    refine (DValid_mk _ _ _).2 ⟨h1, h2, le_refl 1, ?_⟩
    have := daysInMonth_bounds y m
    omega
  constructor
  · unfold expectD fromYmd?
    rw [if_pos hv]
    rfl
  · exact hv

theorem som_form (now : Date) (h1 : 1 ≤ now.m) (h2 : now.m ≤ 12) :
    ∃ Y M : Int,
      start_of_next_month now = ⟨Y, M, 1⟩ ∧ DValid ⟨Y, M, 1⟩ ∧
      end_of_current_month now = addDays ⟨Y, M, 1⟩ (-1) := by
  by_cases hgt : now.m + 1 > 12
  · refine ⟨now.y + 1, 1, ?_, ?_, ?_⟩
    · unfold start_of_next_month
      rw [if_pos hgt, if_pos hgt]
      exact (month_first_valid _ (by omega) (by omega)).1
    · exact (month_first_valid _ (by omega : (1:Int) ≤ 1) (by omega)).2
    · unfold end_of_current_month
      rw [if_pos hgt, if_pos hgt, (month_first_valid _ (by omega : (1:Int) ≤ 1) (by omega)).1]
  · refine ⟨now.y, now.m + 1, ?_, ?_, ?_⟩
    · unfold start_of_next_month
      rw [if_neg hgt, if_neg hgt]
      exact (month_first_valid _ (by omega) (by omega)).1
    · exact (month_first_valid _ (by omega : (1:Int) ≤ now.m + 1) (by omega)).2
    · unfold end_of_current_month
      rw [if_neg hgt, if_neg hgt,
        (month_first_valid _ (by omega : (1:Int) ≤ now.m + 1) (by omega)).1]

theorem soq_form (now : Date) (h1 : 1 ≤ now.m) (h2 : now.m ≤ 12) :
    ∃ Y M : Int,
      start_of_next_quarter now = ⟨Y, M, 1⟩ ∧ DValid ⟨Y, M, 1⟩ ∧
      (M = 1 ∨ M = 4 ∨ M = 7 ∨ M = 10) ∧
      end_of_current_quarter now = addDays ⟨Y, M, 1⟩ (-1) := by
  have hq : ((now.m - 1) / 3 + 1) * 3 + 1 = 4 ∨ ((now.m - 1) / 3 + 1) * 3 + 1 = 7 ∨
      ((now.m - 1) / 3 + 1) * 3 + 1 = 10 ∨ ((now.m - 1) / 3 + 1) * 3 + 1 = 13 := by
    omega
  by_cases hgt : ((now.m - 1) / 3 + 1) * 3 + 1 > 12
  · refine ⟨now.y + 1, ((now.m - 1) / 3 + 1) * 3 + 1 - 12, ?_, ?_, ?_, ?_⟩
    · unfold start_of_next_quarter
      rw [if_pos hgt, if_pos hgt]
      exact (month_first_valid _ (by omega) (by omega)).1
    · exact (month_first_valid _ (by omega) (by omega)).2
    · omega
    · unfold end_of_current_quarter
      rw [if_pos hgt, if_pos hgt, (month_first_valid _ (by omega) (by omega)).1]
  · refine ⟨now.y, ((now.m - 1) / 3 + 1) * 3 + 1, ?_, ?_, ?_, ?_⟩
    · unfold start_of_next_quarter
      rw [if_neg hgt, if_neg hgt]
      exact (month_first_valid _ (by omega) (by omega)).1
    · exact (month_first_valid _ (by omega) (by omega)).2
    · omega
    · unfold end_of_current_quarter
      rw [if_neg hgt, if_neg hgt, (month_first_valid _ (by omega) (by omega)).1]

/-- C10: the period-marker relations.  For any valid current moment:
`sow` is strictly after `eow`; `eonw` is exactly 7 days after `eow`;
`som` is strictly after `eom` and exactly 1 day after it; `soq` is
strictly after `eoq`; and `soq` falls on day 1 of a quarter-start month
(1, 4, 7 or 10). -/
theorem c10_period_marker_relations (now : Date) (h : DValid now) :
    ∃ sow eow eonw som eom soq eoq : Date,
      parse_date (s2l "sow") now now = .ok sow ∧
      parse_date (s2l "eow") now now = .ok eow ∧
      parse_date (s2l "eonw") now now = .ok eonw ∧
      parse_date (s2l "som") now now = .ok som ∧
      parse_date (s2l "eom") now now = .ok eom ∧
      parse_date (s2l "soq") now now = .ok soq ∧
      parse_date (s2l "eoq") now now = .ok eoq ∧
      dlt eow sow ∧ toDays eonw - toDays eow = 7 ∧
      dlt eom som ∧ toDays som - toDays eom = 1 ∧
      dlt eoq soq ∧ soq.d = 1 ∧ (soq.m = 1 ∨ soq.m = 4 ∨ soq.m = 7 ∨ soq.m = 10) := by
  obtain ⟨hm1, hm2, hd1, hd2⟩ := h
  have h' : DValid now := ⟨hm1, hm2, hd1, hd2⟩
  have hsowv : DValid (find_next_weekday .mon now) := find_next_weekday_valid _ h'
  obtain ⟨Y1, M1, hsom, hsomv, heom⟩ := som_form now hm1 hm2
  obtain ⟨Y2, M2, hsoq, hsoqv, hM2, heoq⟩ := soq_form now hm1 hm2
  refine ⟨find_next_weekday .mon now, addDays (find_next_weekday .mon now) (-1),
    addDays (find_next_weekday .mon now) 6,
    start_of_next_month now, end_of_current_month now,
    start_of_next_quarter now, end_of_current_quarter now,
    rfl, rfl, rfl, rfl, rfl, rfl, rfl, ?_, ?_, ?_, ?_, ?_, ?_, ?_⟩
  · rw [dlt_iff_toDays (addDays_valid hsowv _) hsowv, toDays_addDays hsowv]
    omega
  · rw [toDays_addDays hsowv, toDays_addDays hsowv]
    omega
  · rw [heom, hsom]
    rw [dlt_iff_toDays (addDays_valid hsomv _) hsomv, toDays_addDays hsomv]
    omega
  · rw [heom, hsom, toDays_addDays hsomv]
    omega
  · rw [heoq, hsoq]
    rw [dlt_iff_toDays (addDays_valid hsoqv _) hsoqv, toDays_addDays hsoqv]
    omega
  · rw [hsoq]
  · rw [hsoq]
    exact hM2

theorem c10_period_marker_relations_witness :
    DValid ⟨2024, 1, 1⟩ ∧
    (∃ sow eow eonw som eom soq eoq : Date,
      parse_date (s2l "sow") ⟨2024, 1, 1⟩ ⟨2024, 1, 1⟩ = .ok sow ∧
      parse_date (s2l "eow") ⟨2024, 1, 1⟩ ⟨2024, 1, 1⟩ = .ok eow ∧
      parse_date (s2l "eonw") ⟨2024, 1, 1⟩ ⟨2024, 1, 1⟩ = .ok eonw ∧
      parse_date (s2l "som") ⟨2024, 1, 1⟩ ⟨2024, 1, 1⟩ = .ok som ∧
      parse_date (s2l "eom") ⟨2024, 1, 1⟩ ⟨2024, 1, 1⟩ = .ok eom ∧
      parse_date (s2l "soq") ⟨2024, 1, 1⟩ ⟨2024, 1, 1⟩ = .ok soq ∧
      parse_date (s2l "eoq") ⟨2024, 1, 1⟩ ⟨2024, 1, 1⟩ = .ok eoq ∧
      dlt eow sow ∧ toDays eonw - toDays eow = 7 ∧
      dlt eom som ∧ toDays som - toDays eom = 1 ∧
      dlt eoq soq ∧ soq.d = 1 ∧ (soq.m = 1 ∨ soq.m = 4 ∨ soq.m = 7 ∨ soq.m = 10)) :=
  ⟨by decide, c10_period_marker_relations ⟨2024, 1, 1⟩ (by decide)⟩

/-! ## Ordinal day search lemmas (claims C8, C9) -/

theorem searchDayLoop_succ (day sy y m : Int) (f : Nat) :
    searchDayLoop day sy y m (f + 1) =
      match fromYmd? y m day with
      | some date => .ok date
      | none =>
        if (nextYM y m).1 > sy + 2 then .error .noValidDateInRange
        else searchDayLoop day sy (nextYM y m).1 (nextYM y m).2 f := rfl

theorem nextYM_bounds {y m : Int} (hm1 : 1 ≤ m) (hm2 : m ≤ 12) :
    1 ≤ (nextYM y m).2 ∧ (nextYM y m).2 ≤ 12 ∧ y ≤ (nextYM y m).1 ∧
    (nextYM y m).1 ≤ y + 1 ∧
    12 * (nextYM y m).1 + (nextYM y m).2 = 12 * y + m + 1 := by
  unfold nextYM
  split_ifs with h <;> dsimp only <;> omega

theorem dim_next_of_not_fit {y m day : Int} (hm1 : 1 ≤ m) (hm2 : m ≤ 12)
    (hd31 : day ≤ 31) (hno : ¬ day ≤ daysInMonth y m) :
    day ≤ daysInMonth (nextYM y m).1 (nextYM y m).2 := by
  unfold daysInMonth at hno
  split_ifs at hno with hA hB
  · -- February: next month is March, which has 31 days
    unfold nextYM
    rw [if_neg (by omega)]
    dsimp only
    unfold daysInMonth
    rw [if_neg (by omega), if_neg (by omega)]
    omega
  · -- a 30-day month: the next month is 5, 7, 10 or 12, which has 31 days
    unfold nextYM
    rw [if_neg (by omega)]
    dsimp only
    unfold daysInMonth
    rw [if_neg (by omega), if_neg (by omega)]
    omega
  · -- a 31-day month always fits a day ≤ 31
    omega

theorem fromYmd?_pos {y m d : Int} (h : DValid ⟨y, m, d⟩) :
    fromYmd? y m d = some ⟨y, m, d⟩ := by
  unfold fromYmd?
  rw [if_pos h]

theorem fromYmd?_neg {y m d : Int} (h : ¬ DValid ⟨y, m, d⟩) :
    fromYmd? y m d = none := by
  unfold fromYmd?
  rw [if_neg h]

theorem searchDayLoop_spec (day sy y m : Int) (hd1 : 1 ≤ day) (hd31 : day ≤ 31)
    (hm1 : 1 ≤ m) (hm2 : m ≤ 12) (hy : y ≤ sy + 1) {fuel : Nat} (hf : 2 ≤ fuel) :
    (day ≤ daysInMonth y m → searchDayLoop day sy y m fuel = .ok ⟨y, m, day⟩) ∧
    (¬ day ≤ daysInMonth y m →
      searchDayLoop day sy y m fuel = .ok ⟨(nextYM y m).1, (nextYM y m).2, day⟩ ∧
      day ≤ daysInMonth (nextYM y m).1 (nextYM y m).2) := by
  obtain ⟨f, rfl⟩ : ∃ f, fuel = f + 2 := ⟨fuel - 2, by omega⟩
  have hnb := nextYM_bounds (y := y) hm1 hm2
  constructor
  · intro hfit
    rw [searchDayLoop_succ]
    rw [fromYmd?_pos ((DValid_mk _ _ _).2 ⟨hm1, hm2, hd1, hfit⟩)]
  · intro hno
    have hfit2 := dim_next_of_not_fit hm1 hm2 hd31 hno
    have hval2 : DValid ⟨(nextYM y m).1, (nextYM y m).2, day⟩ :=
      (DValid_mk _ _ _).2 ⟨by omega, by omega, hd1, hfit2⟩
    refine ⟨?_, hfit2⟩
    rw [searchDayLoop_succ]
    rw [fromYmd?_neg (by rw [DValid_mk]; omega)]
    rw [if_neg (by omega)]
    rw [searchDayLoop_succ]
    rw [fromYmd?_pos hval2]

theorem find_next_occurrence_of_day_spec {now : Date} (h : DValid now) {day : Int}
    (hd1 : 1 ≤ day) (hd31 : day ≤ 31) :
    ∃ t : Date, find_next_occurrence_of_day now day = .ok t ∧ DValid t ∧ t.d = day ∧
      dlt now t ∧ (now.d ≥ day → 12 * t.y + t.m > 12 * now.y + now.m) ∧
      day ≤ daysInMonth t.y t.m := by
  obtain ⟨hm1, hm2, hdl, hdu⟩ := h
  unfold find_next_occurrence_of_day
  by_cases hge : now.d ≥ day
  · rw [if_pos hge, if_pos hge]
    have hnb := nextYM_bounds (y := now.y) hm1 hm2
    have hspec := searchDayLoop_spec day now.y (nextYM now.y now.m).1
      (nextYM now.y now.m).2 hd1 hd31 (by omega) (by omega)
      (by omega) (by omega : 2 ≤ 40)
    by_cases hfit : day ≤ daysInMonth (nextYM now.y now.m).1 (nextYM now.y now.m).2
    · refine ⟨_, hspec.1 hfit, (DValid_mk _ _ _).2 ⟨by omega, by omega, hd1, hfit⟩,
        rfl, ?_, ?_, by dsimp only; exact hfit⟩
      · unfold dlt
        dsimp only
        omega
      · intro _
        dsimp only
        omega
    · have hnb2 := nextYM_bounds (y := (nextYM now.y now.m).1)
        (m := (nextYM now.y now.m).2) (by omega) (by omega)
      obtain ⟨hrun, hfit2⟩ := hspec.2 hfit
      refine ⟨_, hrun, (DValid_mk _ _ _).2 ⟨by omega, by omega, hd1, hfit2⟩,
        rfl, ?_, ?_, by dsimp only; exact hfit2⟩
      · unfold dlt
        dsimp only
        omega
      · intro _
        dsimp only
        omega
  · rw [if_neg hge, if_neg hge]
    have hnb := nextYM_bounds (y := now.y) hm1 hm2
    have hspec := searchDayLoop_spec day now.y now.y now.m
      hd1 hd31 hm1 hm2 (by omega) (by omega : 2 ≤ 40)
    by_cases hfit : day ≤ daysInMonth now.y now.m
    · refine ⟨_, hspec.1 hfit, (DValid_mk _ _ _).2 ⟨hm1, hm2, hd1, hfit⟩,
        rfl, ?_, ?_, by dsimp only; exact hfit⟩
      · unfold dlt
        dsimp only
        omega
      · intro hc
        omega
    · obtain ⟨hrun, hfit2⟩ := hspec.2 hfit
      refine ⟨_, hrun, (DValid_mk _ _ _).2 ⟨by omega, by omega, hd1, hfit2⟩,
        rfl, ?_, ?_, by dsimp only; exact hfit2⟩
      · unfold dlt
        dsimp only
        omega
      · intro hc
        omega

/-! ## Claim C9 -/

/-- C9: for every legal day value 1–31 and every valid current moment,
the bounded month-by-month search of `find_next_occurrence_of_day` finds
a valid calendar date: the `NoValidDateInRange` branch is unreachable. -/
theorem c9_ordinal_search_never_fails {now : Date} (h : DValid now) {day : Int}
    (hd1 : 1 ≤ day) (hd31 : day ≤ 31) :
    ∃ t : Date, find_next_occurrence_of_day now day = .ok t ∧ DValid t := by
  obtain ⟨t, hrun, hv, _⟩ := find_next_occurrence_of_day_spec h hd1 hd31
  exact ⟨t, hrun, hv⟩

theorem c9_ordinal_search_never_fails_witness :
    DValid ⟨2024, 1, 31⟩ ∧ (1:Int) ≤ 31 ∧ (31:Int) ≤ 31 ∧
    (∃ t : Date, find_next_occurrence_of_day ⟨2024, 1, 31⟩ 31 = .ok t ∧ DValid t) :=
  ⟨by decide, by decide, by decide,
   c9_ordinal_search_never_fails (by decide) (by decide) (by decide)⟩

/-! ## Character class lemmas -/

theorem digit_bounds {c : Char} (h : isDigitC c = true) :
    48 ≤ c.toNat ∧ c.toNat ≤ 57 := by
  unfold isDigitC at h
  simpa using h

theorem alpha_bounds {c : Char} (h : isAlphaC c = true) :
    (65 ≤ c.toNat ∧ c.toNat ≤ 90) ∨ (97 ≤ c.toNat ∧ c.toNat ≤ 122) := by
  unfold isAlphaC at h
  simp only [Bool.or_eq_true, Bool.and_eq_true, decide_eq_true_eq] at h
  omega

theorem digit_not_alpha {c : Char} (h : isDigitC c = true) : isAlphaC c = false := by
  have hb := digit_bounds h
  by_contra hc
  have ht : isAlphaC c = true := by revert hc; cases isAlphaC c <;> simp
  have := alpha_bounds ht
  omega

theorem digit_not_sep {c : Char} (h : isDigitC c = true) : isSepC c = false := by
  have hb := digit_bounds h
  unfold isSepC
  have h1 : c ≠ '-' := by intro h'; subst h'; exact absurd hb (by decide)
  have h2 : c ≠ '/' := by intro h'; subst h'; exact absurd hb (by decide)
  simp [h1, h2]

theorem alpha_not_digit {c : Char} (h : isAlphaC c = true) : isDigitC c = false := by
  have hb := alpha_bounds h
  by_contra hc
  have ht : isDigitC c = true := by revert hc; cases isDigitC c <;> simp
  have := digit_bounds ht
  omega

theorem alpha_not_sep {c : Char} (h : isAlphaC c = true) : isSepC c = false := by
  have hb := alpha_bounds h
  unfold isSepC
  have h1 : c ≠ '-' := by intro h'; subst h'; exact absurd hb (by decide)
  have h2 : c ≠ '/' := by intro h'; subst h'; exact absurd hb (by decide)
  simp [h1, h2]

theorem digit_ne_dash {c : Char} (h : isDigitC c = true) : c ≠ '-' := by
  intro h'; subst h'; exact absurd (digit_bounds h) (by decide)

theorem digit_ne_n {c : Char} (h : isDigitC c = true) : c ≠ 'n' := by
  intro h'; subst h'; exact absurd (digit_bounds h) (by decide)

theorem alpha_ne_dash {c : Char} (h : isAlphaC c = true) : c ≠ '-' := by
  intro h'; subst h'; exact absurd (alpha_bounds h) (by decide)

theorem headDigitB_digits {ds : List Char} (hds : ∀ c ∈ ds, isDigitC c = true)
    (hne : ds ≠ []) : headDigitB ds = true := by
  cases ds with
  | nil => exact absurd rfl hne
  | cons c t => exact hds c (List.mem_cons_self c t)

theorem headAlphaB_of_digits {ds : List Char} (hds : ∀ c ∈ ds, isDigitC c = true) :
    headAlphaB ds = false := by
  cases ds with
  | nil => rfl
  | cons c t => exact digit_not_alpha (hds c (List.mem_cons_self c t))

theorem headDigitB_of_alpha {l : List Char} (hl : ∀ c ∈ l, isAlphaC c = true) :
    headDigitB l = false := by
  cases l with
  | nil => rfl
  | cons c t => exact alpha_not_digit (hl c (List.mem_cons_self c t))

theorem headSepB_of_alpha {l : List Char} (hl : ∀ c ∈ l, isAlphaC c = true) :
    headSepB l = false := by
  cases l with
  | nil => rfl
  | cons c t => exact alpha_not_sep (hl c (List.mem_cons_self c t))

theorem takeDigits_all {ds : List Char} (hds : ∀ c ∈ ds, isDigitC c = true) :
    takeDigits ds = (ds, []) := by
  have := takeDigits_app (r := []) hds rfl
  simpa using this

theorem takeAlpha_all {l : List Char} (hl : ∀ c ∈ l, isAlphaC c = true) :
    takeAlpha l = (l, []) := by
  have := takeAlpha_app (r := []) hl rfl
  simpa using this

/-! ## Matcher denial lemmas: which shapes each regex rejects -/

theorem sep_not_digit {c : Char} (h : isSepC c = true) : isDigitC c = false := by
  unfold isSepC at h
  simp only [Bool.or_eq_true, decide_eq_true_eq] at h
  rcases h with h | h <;> subst h <;> decide

theorem matchYmd_none_headNotDigit {l : List Char} (h : headDigitB l = false) :
    matchYmd l = none := by
  unfold matchYmd
  rw [takeDigits_notDigit h]
  rfl

theorem matchYmd_none_notSep {ds r : List Char} (hds : ∀ c ∈ ds, isDigitC c = true)
    (hr : headDigitB r = false) (hs : headSepB r = false) :
    matchYmd (ds ++ r) = none := by
  unfold matchYmd
  rw [takeDigits_app hds hr]
  dsimp only
  by_cases hl : ds.length = 4
  · rw [if_pos hl]
    cases r with
    | nil => rfl
    | cons c t =>
      simp only [headSepB] at hs
      dsimp only
      rw [if_neg (by simp [hs])]
  · rw [if_neg hl]

theorem matchYmd_none_len {ds r : List Char} (hds : ∀ c ∈ ds, isDigitC c = true)
    (hr : headDigitB r = false) (hl : ds.length ≠ 4) :
    matchYmd (ds ++ r) = none := by
  unfold matchYmd
  rw [takeDigits_app hds hr]
  dsimp only
  rw [if_neg hl]

theorem matchDmy_none_headNotDigit {l : List Char} (h : headDigitB l = false) :
    matchDmy l = none := by
  unfold matchDmy
  rw [takeDigits_notDigit h]
  rfl

theorem matchDmy_none_notSep {ds r : List Char} (hds : ∀ c ∈ ds, isDigitC c = true)
    (hr : headDigitB r = false) (hs : headSepB r = false) :
    matchDmy (ds ++ r) = none := by
  unfold matchDmy
  rw [takeDigits_app hds hr]
  dsimp only
  by_cases hl : 1 ≤ ds.length ∧ ds.length ≤ 2
  · rw [if_pos hl]
    cases r with
    | nil => rfl
    | cons c t =>
      simp only [headSepB] at hs
      dsimp only
      rw [if_neg (by simp [hs])]
  · rw [if_neg hl]

theorem matchDmy_none_secondNotDigit {ds : List Char} {s : Char} {r : List Char}
    (hds : ∀ c ∈ ds, isDigitC c = true) (hsep : isSepC s = true)
    (hr : headDigitB r = false) :
    matchDmy (ds ++ s :: r) = none := by
  unfold matchDmy
  rw [takeDigits_app hds (by simp [headDigitB, sep_not_digit hsep])]
  dsimp only
  by_cases hl : 1 ≤ ds.length ∧ ds.length ≤ 2
  · rw [if_pos hl, if_pos (by simp [hsep])]
    rw [takeDigits_notDigit hr]
    rfl
  · rw [if_neg hl]

theorem matchDmy_none_end {ds : List Char} {s : Char} {ms : List Char}
    (hds : ∀ c ∈ ds, isDigitC c = true) (hsep : isSepC s = true)
    (hms : ∀ c ∈ ms, isDigitC c = true) :
    matchDmy (ds ++ s :: ms) = none := by
  unfold matchDmy
  rw [takeDigits_app hds (by simp [headDigitB, sep_not_digit hsep])]
  dsimp only
  by_cases hl : 1 ≤ ds.length ∧ ds.length ≤ 2
  · rw [if_pos hl, if_pos (by simp [hsep])]
    rw [takeDigits_all hms]
    dsimp only
    by_cases hl2 : 1 ≤ ms.length ∧ ms.length ≤ 2
    · rw [if_pos hl2]
    · rw [if_neg hl2]
  · rw [if_neg hl]

theorem matchNumberedWd_none_head {l : List Char} (h : headDigitB l = false) :
    matchNumberedWd l = none := by
  unfold matchNumberedWd
  rw [takeDigits_notDigit h]
  rfl

theorem matchNumberedWd_none_rest {ds r : List Char}
    (hds : ∀ c ∈ ds, isDigitC c = true) (hr : headDigitB r = false)
    (hlook : lookupL weekdayTable r = none) :
    matchNumberedWd (ds ++ r) = none := by
  unfold matchNumberedWd
  rw [takeDigits_app hds hr]
  dsimp only
  by_cases hne : ds.length = 0
  · rw [if_pos hne]
  · rw [if_neg hne, hlook]

theorem matchOrdinal_none_head {l : List Char} (h : headDigitB l = false) :
    matchOrdinal l = none := by
  unfold matchOrdinal
  rw [takeDigits_notDigit h]
  rfl

theorem matchOrdinal_none_rest {ds r : List Char}
    (hds : ∀ c ∈ ds, isDigitC c = true) (hr : headDigitB r = false)
    (hlook : lookupL suffixTable r = none) :
    matchOrdinal (ds ++ r) = none := by
  unfold matchOrdinal
  rw [takeDigits_app hds hr]
  dsimp only
  by_cases hl : 1 ≤ ds.length ∧ ds.length ≤ 2
  · rw [if_pos hl, hlook]
  · rw [if_neg hl]

theorem matchDayMonth_none_head {l : List Char} (h : headDigitB l = false) :
    matchDayMonth l = none := by
  unfold matchDayMonth
  rw [takeDigits_notDigit h]
  rfl

theorem matchDayMonth_none_notSep {ds r : List Char}
    (hds : ∀ c ∈ ds, isDigitC c = true) (hr : headDigitB r = false)
    (hs : headSepB r = false) :
    matchDayMonth (ds ++ r) = none := by
  unfold matchDayMonth
  rw [takeDigits_app hds hr]
  dsimp only
  by_cases hl : 1 ≤ ds.length ∧ ds.length ≤ 2
  · rw [if_pos hl]
    cases r with
    | nil => rfl
    | cons c t =>
      simp only [headSepB] at hs
      dsimp only
      rw [if_neg (by simp [hs])]
  · rw [if_neg hl]

theorem matchDayMonth_none_afterSepNotAlpha {ds : List Char} {s : Char} {r : List Char}
    (hds : ∀ c ∈ ds, isDigitC c = true) (hsep : isSepC s = true)
    (hra : headAlphaB r = false) :
    matchDayMonth (ds ++ s :: r) = none := by
  unfold matchDayMonth
  rw [takeDigits_app hds (by simp [headDigitB, sep_not_digit hsep])]
  dsimp only
  by_cases hl : 1 ≤ ds.length ∧ ds.length ≤ 2
  · rw [if_pos hl, if_pos (by simp [hsep])]
    rw [takeAlpha_notAlpha hra]
    dsimp only
    rw [if_neg (by simp)]
  · rw [if_neg hl]

theorem matchMonthDay_none_headNotAlpha {l : List Char} (h : headAlphaB l = false) :
    matchMonthDay l = none := by
  unfold matchMonthDay
  rw [takeAlpha_notAlpha h]
  rfl

theorem matchAlphaDmy_none_head {l : List Char} (h : headDigitB l = false) :
    matchAlphaDmy l = none := by
  unfold matchAlphaDmy
  rw [takeDigits_notDigit h]
  rfl

theorem matchAlphaDmy_none_notSep {ds r : List Char}
    (hds : ∀ c ∈ ds, isDigitC c = true) (hr : headDigitB r = false)
    (hs : headSepB r = false) :
    matchAlphaDmy (ds ++ r) = none := by
  unfold matchAlphaDmy
  rw [takeDigits_app hds hr]
  dsimp only
  by_cases hl : 1 ≤ ds.length ∧ ds.length ≤ 2
  · rw [if_pos hl]
    cases r with
    | nil => rfl
    | cons c t =>
      simp only [headSepB] at hs
      dsimp only
      rw [if_neg (by simp [hs])]
  · rw [if_neg hl]

theorem matchAlphaDmy_none_afterSepNotAlpha {ds : List Char} {s : Char} {r : List Char}
    (hds : ∀ c ∈ ds, isDigitC c = true) (hsep : isSepC s = true)
    (hra : headAlphaB r = false) :
    matchAlphaDmy (ds ++ s :: r) = none := by
  unfold matchAlphaDmy
  rw [takeDigits_app hds (by simp [headDigitB, sep_not_digit hsep])]
  dsimp only
  by_cases hl : 1 ≤ ds.length ∧ ds.length ≤ 2
  · rw [if_pos hl, if_pos (by simp [hsep])]
    rw [takeAlpha_notAlpha hra]
    dsimp only
    rw [if_neg (by simp)]
  · rw [if_neg hl]

theorem matchAlphaYmd_none_head {l : List Char} (h : headDigitB l = false) :
    matchAlphaYmd l = none := by
  unfold matchAlphaYmd
  rw [takeDigits_notDigit h]
  rfl

theorem matchAlphaYmd_none_len {ds r : List Char}
    (hds : ∀ c ∈ ds, isDigitC c = true) (hr : headDigitB r = false)
    (hl : ds.length ≠ 4) :
    matchAlphaYmd (ds ++ r) = none := by
  unfold matchAlphaYmd
  rw [takeDigits_app hds hr]
  dsimp only
  rw [if_neg hl]

theorem matchAlphaYmd_none_notSep {ds r : List Char}
    (hds : ∀ c ∈ ds, isDigitC c = true) (hr : headDigitB r = false)
    (hs : headSepB r = false) :
    matchAlphaYmd (ds ++ r) = none := by
  unfold matchAlphaYmd
  rw [takeDigits_app hds hr]
  dsimp only
  by_cases hl : ds.length = 4
  · rw [if_pos hl]
    cases r with
    | nil => rfl
    | cons c t =>
      simp only [headSepB] at hs
      dsimp only
      rw [if_neg (by simp [hs])]
  · rw [if_neg hl]

theorem sep_not_alpha {c : Char} (h : isSepC c = true) : isAlphaC c = false := by
  unfold isSepC at h
  simp only [Bool.or_eq_true, decide_eq_true_eq] at h
  rcases h with h | h <;> subst h <;> decide

theorem stageNextWd_none_head {c : Char} {r : List Char} {noww : Date} (h : c ≠ 'n') :
    stageNextWd (c :: r) noww = none := by
  unfold stageNextWd
  split
  · rename_i heq
    injection heq with h1 h2
    exact absurd h1 h
  · rfl

theorem stageNextWd_cons_n (r : List Char) (noww : Date) :
    stageNextWd ('n' :: r) noww =
      Option.map (fun wd => Except.ok (find_weekday_offset wd 1 noww))
        (lookupL weekdayTable r) := rfl

theorem stageNextWd_none_dash {c : Char} {r : List Char} {noww : Date} (h : '-' ∈ r) :
    stageNextWd (c :: r) noww = none := by
  by_cases hc : c = 'n'
  · subst hc
    rw [stageNextWd_cons_n, lookupL_none_memDash (fun p hp => (weekdayTable_keys p hp).2) h]
    rfl
  · exact stageNextWd_none_head hc

theorem matchRelative_none_headAlpha {c : Char} {t : List Char} (hc : isAlphaC c = true) :
    matchRelative (c :: t) = none := by
  unfold matchRelative
  have hcd : c ≠ '-' := alpha_ne_dash hc
  split
  · rename_i heq
    injection heq with h1 h2
    exact absurd h1 hcd
  · dsimp only
    rw [takeDigits_notDigit (by simp [headDigitB, alpha_not_digit hc])]
    rfl

theorem matchRelative_none_rest {ds r : List Char}
    (hds : ∀ c ∈ ds, isDigitC c = true) (hne : ds ≠ [])
    (hr : headDigitB r = false) (hlook : lookupL unitTable r = none) :
    matchRelative (ds ++ r) = none := by
  unfold matchRelative
  split
  · rename_i heq
    cases ds with
    | nil => exact absurd rfl hne
    | cons c t =>
      simp only [List.cons_append] at heq
      injection heq with h1 h2
      exact absurd h1 (digit_ne_dash (hds c (List.mem_cons_self c t)))
  · dsimp only
    rw [takeDigits_app hds hr]
    dsimp only
    rw [if_neg (by simp [hne]), hlook]

theorem matchRelative_eval_pos {ds u : List Char} {mult : Int}
    (hds : ∀ c ∈ ds, isDigitC c = true) (hne : ds ≠ [])
    (hu : headDigitB u = false) (hlook : lookupL unitTable u = some mult) :
    matchRelative (ds ++ u) = some (false, ds, mult) := by
  unfold matchRelative
  split
  · rename_i heq
    cases ds with
    | nil => exact absurd rfl hne
    | cons c t =>
      simp only [List.cons_append] at heq
      injection heq with h1 h2
      exact absurd h1 (digit_ne_dash (hds c (List.mem_cons_self c t)))
  · dsimp only
    rw [takeDigits_app hds hu]
    dsimp only
    rw [if_neg (by simp [hne]), hlook]

theorem matchRelative_eval_neg {ds u : List Char} {mult : Int}
    (hds : ∀ c ∈ ds, isDigitC c = true) (hne : ds ≠ [])
    (hu : headDigitB u = false) (hlook : lookupL unitTable u = some mult) :
    matchRelative ('-' :: (ds ++ u)) = some (true, ds, mult) := by
  unfold matchRelative
  split
  · rename_i heq
    injection heq with h1 h2
    subst h2
    dsimp only
    rw [takeDigits_app hds hu]
    dsimp only
    rw [if_neg (by simp [hne]), hlook]
  · rename_i hno
    exact absurd rfl (hno (ds ++ u))

theorem matchOrdinal_eval {ds suf : List Char}
    (hds : ∀ c ∈ ds, isDigitC c = true)
    (hl : 1 ≤ ds.length ∧ ds.length ≤ 2) (hr : headDigitB suf = false)
    (hsuf : lookupL suffixTable suf = some ()) :
    matchOrdinal (ds ++ suf) = some ds := by
  unfold matchOrdinal
  rw [takeDigits_app hds hr]
  dsimp only
  rw [if_pos hl, hsuf]

theorem matchDayMonth_eval {ds : List Char} {s : Char} {mn : List Char}
    (hds : ∀ c ∈ ds, isDigitC c = true) (hl : 1 ≤ ds.length ∧ ds.length ≤ 2)
    (hsep : isSepC s = true) (hmn : ∀ c ∈ mn, isAlphaC c = true) (hne : mn ≠ []) :
    matchDayMonth (ds ++ s :: mn) = some (ds, mn) := by
  unfold matchDayMonth
  rw [takeDigits_app hds (by simp [headDigitB, sep_not_digit hsep])]
  dsimp only
  rw [if_pos hl, if_pos (by simp [hsep])]
  rw [takeAlpha_all hmn]
  dsimp only
  rw [if_pos ⟨by have := List.length_pos.2 hne; omega, rfl⟩]

theorem matchMonthDay_eval {mn : List Char} {s : Char} {ds : List Char}
    (hmn : ∀ c ∈ mn, isAlphaC c = true) (hne : mn ≠ [])
    (hsep : isSepC s = true)
    (hds : ∀ c ∈ ds, isDigitC c = true) (hl : 1 ≤ ds.length ∧ ds.length ≤ 2) :
    matchMonthDay (mn ++ s :: ds) = some (mn, ds) := by
  unfold matchMonthDay
  rw [takeAlpha_app hmn (by simp [headAlphaB, sep_not_alpha hsep])]
  dsimp only
  rw [if_pos (by have := List.length_pos.2 hne; omega)]
  rw [if_pos (by simp [hsep])]
  rw [takeDigits_all hds]
  dsimp only
  rw [if_pos ⟨hl, rfl⟩]

theorem matchShort_eval {ds : List Char} {s : Char} {ms : List Char}
    (hds : ∀ c ∈ ds, isDigitC c = true) (hl1 : 1 ≤ ds.length ∧ ds.length ≤ 2)
    (hsep : isSepC s = true)
    (hms : ∀ c ∈ ms, isDigitC c = true) (hl2 : 1 ≤ ms.length ∧ ms.length ≤ 2) :
    matchShort (ds ++ s :: ms) = some (ds, ms) := by
  unfold matchShort
  rw [takeDigits_app hds (by simp [headDigitB, sep_not_digit hsep])]
  dsimp only
  rw [if_pos hl1]
  rw [if_pos (by simp [hsep])]
  rw [takeDigits_all hms]
  dsimp only
  rw [if_pos ⟨hl2, rfl⟩]

/-! Stage wrappers: a failed matcher or lookup makes the whole stage pass. -/

theorem stageNumericDate_none : stageNumericDate none = none := rfl

theorem stageKeyword_none {l : List Char} {now : Date}
    (h : lookupL keywordTable l = none) : stageKeyword l now = none := by
  unfold stageKeyword; rw [h]; rfl

theorem stageBareWd_none {l : List Char} {noww : Date}
    (h : lookupL weekdayTable l = none) : stageBareWd l noww = none := by
  unfold stageBareWd; rw [h]; rfl

theorem stageMarker_none {l : List Char} {now noww : Date}
    (h : lookupL markerTable l = none) : stageMarker l now noww = none := by
  unfold stageMarker; rw [h]; rfl

theorem stageNumberedWd_none {l : List Char} {noww : Date}
    (h : matchNumberedWd l = none) : stageNumberedWd l noww = none := by
  unfold stageNumberedWd; rw [h]; rfl

theorem stageOrdinal_none {l : List Char} {now : Date}
    (h : matchOrdinal l = none) : stageOrdinal l now = none := by
  unfold stageOrdinal; rw [h]; rfl

theorem stageRelative_none {l : List Char} {now : Date}
    (h : matchRelative l = none) : stageRelative l now = none := by
  unfold stageRelative; rw [h]; rfl

theorem stageDayMonth_none {l : List Char} {now : Date}
    (h : matchDayMonth l = none) : stageDayMonth l now = none := by
  unfold stageDayMonth; rw [h]; rfl

theorem stageMonthDay_none {l : List Char} {now : Date}
    (h : matchMonthDay l = none) : stageMonthDay l now = none := by
  unfold stageMonthDay; rw [h]; rfl

theorem stageAlphaDmy_none {l : List Char}
    (h : matchAlphaDmy l = none) : stageAlphaDmy l = none := by
  unfold stageAlphaDmy; rw [h]; rfl

theorem stageAlphaYmd_none {l : List Char}
    (h : matchAlphaYmd l = none) : stageAlphaYmd l = none := by
  unfold stageAlphaYmd; rw [h]; rfl

/-! ## Cascade reduction lemmas for parameterized input shapes -/

theorem orElseO_none {X : Type} (b : Unit → X) : orElseO none b = b () := rfl

theorem orElseO_some {X : Type} (x : X) (b : Unit → X) : orElseO (some x) b = x := rfl

theorem headDigitB_append {a b : List Char} (hne : a ≠ []) :
    headDigitB (a ++ b) = headDigitB a := by
  cases a with
  | nil => exact absurd rfl hne
  | cons c t => rfl

theorem headAlphaB_append {a b : List Char} (hne : a ≠ []) :
    headAlphaB (a ++ b) = headAlphaB a := by
  cases a with
  | nil => exact absurd rfl hne
  | cons c t => rfl

theorem keep_append {K : Char → Prop} {a b : List Char}
    (ha : ∀ c ∈ a, K c) (hb : ∀ c ∈ b, K c) : ∀ c ∈ a ++ b, K c := by
  intro c hc
  rcases List.mem_append.1 hc with h | h
  · exact ha c h
  · exact hb c h

/-- On an ordinal-shaped input (one or two digits followed by one of the
four suffixes, value at most 31) the cascade reaches stage 8 and resolves
through `find_next_occurrence_of_day`. -/
theorem parse_reduce_ordinal {ds suf : List Char} (now noww : Date)
    (hds : ∀ c ∈ ds, isDigitC c = true)
    (hl : 1 ≤ ds.length ∧ ds.length ≤ 2)
    (hsuf : lookupL suffixTable suf = some ())
    (hday : (valD ds : Int) ≤ 31) :
    parse_date (ds ++ suf) now noww = find_next_occurrence_of_day now (valD ds) := by
  have hmem := lookupL_mem hsuf
  obtain ⟨hkeep, hhead, hdash⟩ := suffixTable_keys _ hmem
  have halpha : ∀ c ∈ suf, isAlphaC c = true := fun c hc => (hkeep c hc).1
  have hne : ds ≠ [] := by intro h; subst h; simp at hl
  have hrd : headDigitB suf = false := headDigitB_of_alpha halpha
  have hrs : headSepB suf = false := headSepB_of_alpha halpha
  obtain ⟨c, t, rfl⟩ : ∃ c t, ds = c :: t := by
    cases ds with
    | nil => exact absurd rfl hne
    | cons c t => exact ⟨c, t, rfl⟩
  have hnorm : normalizeInput ((c :: t) ++ suf) = (c :: t) ++ suf :=
    normalizeInput_fixed (keep_append (fun x hx => keep_of_digit (hds x hx))
      (fun x hx => ⟨(hkeep x hx).2.1, (hkeep x hx).2.2⟩))
  have hnextwd : stageNextWd ((c :: t) ++ suf) noww = none := by
    rw [List.cons_append]
    exact stageNextWd_none_head (digit_ne_n (hds c (List.mem_cons_self c t)))
  have hheadA : headAlphaB ((c :: t) ++ suf) = false := by
    rw [headAlphaB_append hne]
    exact headAlphaB_of_digits hds
  unfold parse_date
  rw [hnorm]
  unfold parse_date_core
  rw [matchYmd_none_notSep hds hrd hrs, stageNumericDate_none, orElseO_none]
  rw [matchDmy_none_notSep hds hrd hrs]
  simp only [Option.map_none']
  rw [stageNumericDate_none, orElseO_none]
  rw [stageKeyword_none
    (lookupL_none_headNotAlpha (fun p hp => (keywordTable_keys p hp).1) hheadA), orElseO_none]
  rw [stageBareWd_none
    (lookupL_none_headNotAlpha (fun p hp => (weekdayTable_keys p hp).1) hheadA), orElseO_none]
  rw [hnextwd, orElseO_none]
  rw [stageNumberedWd_none
    (matchNumberedWd_none_rest hds hrd (suffixTable_not_weekday _ hmem)), orElseO_none]
  rw [stageMarker_none
    (lookupL_none_headNotAlpha (fun p hp => (markerTable_keys p hp).1) hheadA), orElseO_none]
  unfold stageOrdinal
  rw [matchOrdinal_eval hds hl hrd hsuf]
  dsimp only [Option.bind]
  rw [if_pos hday, orElseO_some]

/-! ## Claim C8 -/

/-- C8: an ordinal input with numeral 1–31 resolves through the
month-walking search: the result carries exactly that day-of-month, is
strictly after today (never today), lands in a strictly later month or
year whenever today's day-of-month is at least the numeral (in
particular when they are equal), and only in a month long enough to
contain the numeral (months shorter than the numeral are skipped). -/
theorem c8_ordinal_walk_properties :
    ∀ (ds suf : List Char) (now noww : Date),
      (∀ c ∈ ds, isDigitC c = true) →
      1 ≤ ds.length → ds.length ≤ 2 →
      lookupL suffixTable suf = some () →
      1 ≤ (valD ds : Int) → (valD ds : Int) ≤ 31 →
      DValid now →
      ∃ t : Date,
        parse_date (ds ++ suf) now noww = .ok t ∧ DValid t ∧
        t.d = (valD ds : Int) ∧ dlt now t ∧ t ≠ now ∧
        (now.d ≥ (valD ds : Int) → 12 * t.y + t.m > 12 * now.y + now.m) ∧
        (valD ds : Int) ≤ daysInMonth t.y t.m := by
  intro ds suf now noww hds hl1 hl2 hsuf hn1 hn31 hv
  rw [parse_reduce_ordinal now noww hds ⟨hl1, hl2⟩ hsuf hn31]
  obtain ⟨t, hrun, hval, hd, hdlt, hlater, hfit⟩ :=
    find_next_occurrence_of_day_spec hv hn1 hn31
  refine ⟨t, hrun, hval, hd, hdlt, ?_, hlater, hfit⟩
  intro h
  subst h
  exact absurd hdlt (dlt_irrefl _)

theorem c8_ordinal_walk_properties_witness :
    (∀ c ∈ s2l "15", isDigitC c = true) ∧
    1 ≤ (s2l "15").length ∧ (s2l "15").length ≤ 2 ∧
    lookupL suffixTable (s2l "th") = some () ∧
    1 ≤ (valD (s2l "15") : Int) ∧ (valD (s2l "15") : Int) ≤ 31 ∧
    DValid ⟨2024, 1, 1⟩ ∧
    (∃ t : Date,
      parse_date (s2l "15" ++ s2l "th") ⟨2024, 1, 1⟩ ⟨2024, 1, 1⟩ = .ok t ∧ DValid t ∧
      t.d = (valD (s2l "15") : Int) ∧ dlt ⟨2024, 1, 1⟩ t ∧ t ≠ ⟨2024, 1, 1⟩ ∧
      ((⟨2024, 1, 1⟩ : Date).d ≥ (valD (s2l "15") : Int) →
        12 * t.y + t.m > 12 * (⟨2024, 1, 1⟩ : Date).y + (⟨2024, 1, 1⟩ : Date).m) ∧
      (valD (s2l "15") : Int) ≤ daysInMonth t.y t.m) :=
  ⟨by decide, by decide, by decide, by decide, by decide, by decide, by decide,
   c8_ordinal_walk_properties (s2l "15") (s2l "th") ⟨2024, 1, 1⟩ ⟨2024, 1, 1⟩
     (by decide) (by decide) (by decide) (by decide) (by decide) (by decide) (by decide)⟩

/-! ## Relative-offset reduction (claim C6) -/

/-- On a positive relative input (digits followed by a unit token) the
cascade reaches stage 9. -/
theorem parse_reduce_relative_pos {ds u : List Char} {mult : Int} (now noww : Date)
    (hds : ∀ c ∈ ds, isDigitC c = true) (hne : ds ≠ [])
    (hu : lookupL unitTable u = some mult) :
    parse_date (ds ++ u) now noww =
      if (valD ds : Int) < -i64Max - 1 ∨ (valD ds : Int) > i64Max
      then .error .intOutOfRange
      else .ok (addDays now ((valD ds : Int) * mult)) := by
  have hmem := lookupL_mem hu
  obtain ⟨hkeep, hhead, hdash, hmult⟩ := unitTable_keys _ hmem
  have halpha : ∀ c ∈ u, isAlphaC c = true := fun c hc => (hkeep c hc).1
  have hrd : headDigitB u = false := headDigitB_of_alpha halpha
  have hrs : headSepB u = false := headSepB_of_alpha halpha
  obtain ⟨c, t, rfl⟩ : ∃ c t, ds = c :: t := by
    cases ds with
    | nil => exact absurd rfl hne
    | cons c t => exact ⟨c, t, rfl⟩
  have hnorm : normalizeInput ((c :: t) ++ u) = (c :: t) ++ u :=
    normalizeInput_fixed (keep_append (fun x hx => keep_of_digit (hds x hx))
      (fun x hx => ⟨(hkeep x hx).2.1, (hkeep x hx).2.2⟩))
  have hnextwd : stageNextWd ((c :: t) ++ u) noww = none := by
    rw [List.cons_append]
    exact stageNextWd_none_head (digit_ne_n (hds c (List.mem_cons_self c t)))
  have hheadA : headAlphaB ((c :: t) ++ u) = false := by
    rw [headAlphaB_append hne]
    exact headAlphaB_of_digits hds
  unfold parse_date
  rw [hnorm]
  unfold parse_date_core
  rw [matchYmd_none_notSep hds hrd hrs, stageNumericDate_none, orElseO_none]
  rw [matchDmy_none_notSep hds hrd hrs]
  simp only [Option.map_none']
  rw [stageNumericDate_none, orElseO_none]
  rw [stageKeyword_none
    (lookupL_none_headNotAlpha (fun p hp => (keywordTable_keys p hp).1) hheadA), orElseO_none]
  rw [stageBareWd_none
    (lookupL_none_headNotAlpha (fun p hp => (weekdayTable_keys p hp).1) hheadA), orElseO_none]
  rw [hnextwd, orElseO_none]
  rw [stageNumberedWd_none
    (matchNumberedWd_none_rest hds hrd (unitTable_not_weekday _ hmem)), orElseO_none]
  rw [stageMarker_none
    (lookupL_none_headNotAlpha (fun p hp => (markerTable_keys p hp).1) hheadA), orElseO_none]
  rw [stageOrdinal_none
    (matchOrdinal_none_rest hds hrd (unitTable_not_suffix _ hmem)), orElseO_none]
  unfold stageRelative
  rw [matchRelative_eval_pos hds hne hrd hu]
  simp only [Option.map_some']
  rw [orElseO_some]
  simp only [Bool.false_eq_true, if_false]

/-- On a negative relative input (a minus sign, digits, then a unit
token) the cascade reaches stage 9. -/
theorem parse_reduce_relative_neg {ds u : List Char} {mult : Int} (now noww : Date)
    (hds : ∀ c ∈ ds, isDigitC c = true) (hne : ds ≠ [])
    (hu : lookupL unitTable u = some mult) :
    parse_date ('-' :: (ds ++ u)) now noww =
      if -(valD ds : Int) < -i64Max - 1 ∨ -(valD ds : Int) > i64Max
      then .error .intOutOfRange
      else .ok (addDays now (-(valD ds : Int) * mult)) := by
  have hmem := lookupL_mem hu
  obtain ⟨hkeep, hhead, hdash, hmult⟩ := unitTable_keys _ hmem
  have hrd : headDigitB u = false :=
    headDigitB_of_alpha fun c hc => (hkeep c hc).1
  have hnorm : normalizeInput ('-' :: (ds ++ u)) = '-' :: (ds ++ u) := by
    apply normalizeInput_fixed
    intro x hx
    rcases List.mem_cons.1 hx with h | h
    · subst h; exact keep_of_dash
    · rcases List.mem_append.1 h with h' | h'
      · exact keep_of_digit (hds x h')
      · exact ⟨(hkeep x h').2.1, (hkeep x h').2.2⟩
  have hhd : headDigitB ('-' :: (ds ++ u)) = false := rfl
  have hha : headAlphaB ('-' :: (ds ++ u)) = false := rfl
  unfold parse_date
  rw [hnorm]
  unfold parse_date_core
  rw [matchYmd_none_headNotDigit hhd, stageNumericDate_none, orElseO_none]
  rw [matchDmy_none_headNotDigit hhd]
  simp only [Option.map_none']
  rw [stageNumericDate_none, orElseO_none]
  rw [stageKeyword_none
    (lookupL_none_headNotAlpha (fun p hp => (keywordTable_keys p hp).1) hha), orElseO_none]
  rw [stageBareWd_none
    (lookupL_none_headNotAlpha (fun p hp => (weekdayTable_keys p hp).1) hha), orElseO_none]
  rw [stageNextWd_none_head (by decide), orElseO_none]
  rw [stageNumberedWd_none (matchNumberedWd_none_head hhd), orElseO_none]
  rw [stageMarker_none
    (lookupL_none_headNotAlpha (fun p hp => (markerTable_keys p hp).1) hha), orElseO_none]
  rw [stageOrdinal_none (matchOrdinal_none_head hhd), orElseO_none]
  unfold stageRelative
  rw [matchRelative_eval_neg hds hne hrd hu]
  simp only [Option.map_some']
  rw [orElseO_some]
  simp only [if_true]

/-! ## Claim C6 -/

/-- C6: a signed integer with a recognized unit token resolves to the
current date plus `n * k` calendar days, where `k` is the unit's day
multiplier from `unitTable` (1 for day units, 7 for week units, exactly
30 for month units, exactly 365 for year units); in particular "0d" is
today and "5d" / "-5d" land symmetrically 5 days after and before today.
The bound on the numeral is the `str::parse::<i64>` range check. -/
theorem c6_relative_offset_arithmetic (neg : Bool) (ds u : List Char) (mult : Int)
    (now noww : Date)
    (hds : ∀ c ∈ ds, isDigitC c = true) (hne : ds ≠ [])
    (hu : lookupL unitTable u = some mult) (hv : DValid now)
    (hrange : (valD ds : Int) ≤ i64Max) :
    parse_date ((if neg then ['-'] else []) ++ (ds ++ u)) now noww
      = .ok (addDays now ((if neg then -(valD ds : Int) else (valD ds : Int)) * mult)) ∧
    toDays (addDays now ((if neg then -(valD ds : Int) else (valD ds : Int)) * mult))
      - toDays now = (if neg then -(valD ds : Int) else (valD ds : Int)) * mult ∧
    parse_date (s2l "0d") now noww = .ok now ∧
    (∃ a b : Date, parse_date (s2l "5d") now noww = .ok a ∧
      parse_date (s2l "-5d") now noww = .ok b ∧
      toDays a - toDays now = 5 ∧ toDays b - toDays now = -5) := by
  have hvp : (0:Int) ≤ (valD ds : Int) := Int.ofNat_nonneg _
  refine ⟨?_, ?_, ?_, ?_⟩
  · cases neg
    · simp only [Bool.false_eq_true, if_false, List.nil_append]
      rw [parse_reduce_relative_pos now noww hds hne hu]
      rw [if_neg (by unfold i64Max at *; omega)]
    · simp only [if_true, List.singleton_append]
      rw [parse_reduce_relative_neg now noww hds hne hu]
      rw [if_neg (by unfold i64Max at *; omega)]
  · rw [toDays_addDays hv]
    omega
  · exact rfl
  · refine ⟨addDays now ((5:Int) * 1), addDays now (-(5:Int) * 1), rfl, rfl, ?_, ?_⟩
    · rw [toDays_addDays hv]; norm_num
    · rw [toDays_addDays hv]; norm_num

theorem c6_relative_offset_arithmetic_witness :
    (∀ c ∈ s2l "12", isDigitC c = true) ∧ s2l "12" ≠ [] ∧
    lookupL unitTable (s2l "weeks") = some 7 ∧ DValid ⟨2024, 1, 1⟩ ∧
    (valD (s2l "12") : Int) ≤ i64Max ∧
    (parse_date ((if true then ['-'] else []) ++ (s2l "12" ++ s2l "weeks"))
        ⟨2024, 1, 1⟩ ⟨2024, 1, 1⟩
      = .ok (addDays ⟨2024, 1, 1⟩
          ((if true then -(valD (s2l "12") : Int) else (valD (s2l "12") : Int)) * 7)) ∧
    toDays (addDays ⟨2024, 1, 1⟩
        ((if true then -(valD (s2l "12") : Int) else (valD (s2l "12") : Int)) * 7))
      - toDays ⟨2024, 1, 1⟩
      = (if true then -(valD (s2l "12") : Int) else (valD (s2l "12") : Int)) * 7 ∧
    parse_date (s2l "0d") ⟨2024, 1, 1⟩ ⟨2024, 1, 1⟩ = .ok ⟨2024, 1, 1⟩ ∧
    (∃ a b : Date, parse_date (s2l "5d") ⟨2024, 1, 1⟩ ⟨2024, 1, 1⟩ = .ok a ∧
      parse_date (s2l "-5d") ⟨2024, 1, 1⟩ ⟨2024, 1, 1⟩ = .ok b ∧
      toDays a - toDays ⟨2024, 1, 1⟩ = 5 ∧ toDays b - toDays ⟨2024, 1, 1⟩ = -5)) :=
  ⟨by decide, by decide, by decide, by decide, by decide,
   c6_relative_offset_arithmetic true (s2l "12") (s2l "weeks") 7 ⟨2024, 1, 1⟩ ⟨2024, 1, 1⟩
     (by decide) (by decide) (by decide) (by decide) (by decide)⟩

/-! ## Day-month family reduction (claim C7) -/

/-- On a day-month alpha input (digits, dash, month name) the cascade
reaches stage 10. -/
theorem parse_reduce_dayMonth {ds mn : List Char} {mv : Int} (now noww : Date)
    (hds : ∀ c ∈ ds, isDigitC c = true) (hl : 1 ≤ ds.length ∧ ds.length ≤ 2)
    (hmn : lookupL monthTable mn = some mv) :
    parse_date (ds ++ '-' :: mn) now noww = find_next_occurrence now mv (valD ds) := by
  have hmem := lookupL_mem hmn
  obtain ⟨hkeep, hhead, hdash, hmne, hmv1, hmv2⟩ := monthTable_keys _ hmem
  have halpha : ∀ c ∈ mn, isAlphaC c = true := fun c hc => (hkeep c hc).1
  have hne : ds ≠ [] := by intro h; subst h; simp at hl
  have hrd : headDigitB ('-' :: mn) = false := rfl
  have hra : headAlphaB ('-' :: mn) = false := rfl
  have hmemdash : '-' ∈ ds ++ '-' :: mn :=
    List.mem_append.2 (Or.inr (List.mem_cons_self _ _))
  obtain ⟨c, t, rfl⟩ : ∃ c t, ds = c :: t := by
    cases ds with
    | nil => exact absurd rfl hne
    | cons c t => exact ⟨c, t, rfl⟩
  have hnorm : normalizeInput ((c :: t) ++ '-' :: mn) = (c :: t) ++ '-' :: mn := by
    apply normalizeInput_fixed
    intro x hx
    rcases List.mem_append.1 hx with h | h
    · exact keep_of_digit (hds x h)
    · rcases List.mem_cons.1 h with h' | h'
      · subst h'; exact keep_of_dash
      · exact ⟨(hkeep x h').2.1, (hkeep x h').2.2⟩
  have hnextwd : stageNextWd ((c :: t) ++ '-' :: mn) noww = none := by
    rw [List.cons_append]
    exact stageNextWd_none_head (digit_ne_n (hds c (List.mem_cons_self c t)))
  unfold parse_date
  rw [hnorm]
  unfold parse_date_core
  rw [matchYmd_none_len hds hrd (by omega), stageNumericDate_none, orElseO_none]
  rw [matchDmy_none_secondNotDigit hds (by decide) (headDigitB_of_alpha halpha)]
  simp only [Option.map_none']
  rw [stageNumericDate_none, orElseO_none]
  rw [stageKeyword_none
    (lookupL_none_memDash (fun p hp => (keywordTable_keys p hp).2) hmemdash), orElseO_none]
  rw [stageBareWd_none
    (lookupL_none_memDash (fun p hp => (weekdayTable_keys p hp).2) hmemdash), orElseO_none]
  rw [hnextwd, orElseO_none]
  rw [stageNumberedWd_none (matchNumberedWd_none_rest hds hrd
    (lookupL_none_headNotAlpha (fun p hp => (weekdayTable_keys p hp).1) hra)), orElseO_none]
  rw [stageMarker_none
    (lookupL_none_memDash (fun p hp => (markerTable_keys p hp).2) hmemdash), orElseO_none]
  rw [stageOrdinal_none (matchOrdinal_none_rest hds hrd
    (lookupL_none_headNotAlpha (fun p hp => (suffixTable_keys p hp).2.1) hra)), orElseO_none]
  rw [stageRelative_none (matchRelative_none_rest hds hne hrd
    (lookupL_none_headNotAlpha (fun p hp => (unitTable_keys p hp).2.1) hra)), orElseO_none]
  unfold stageDayMonth
  rw [matchDayMonth_eval hds hl (by decide) halpha hmne]
  simp only [Option.map_some']
  rw [orElseO_some]
  unfold parse_month
  rw [hmn]

/-- On a month-day alpha input (month name, dash, digits) the cascade
reaches stage 11. -/
theorem parse_reduce_monthDay {mn ds : List Char} {mv : Int} (now noww : Date)
    (hmn : lookupL monthTable mn = some mv)
    (hds : ∀ c ∈ ds, isDigitC c = true) (hl : 1 ≤ ds.length ∧ ds.length ≤ 2) :
    parse_date (mn ++ '-' :: ds) now noww = find_next_occurrence now mv (valD ds) := by
  have hmem := lookupL_mem hmn
  obtain ⟨hkeep, hhead, hdash, hmne, hmv1, hmv2⟩ := monthTable_keys _ hmem
  have halpha : ∀ c ∈ mn, isAlphaC c = true := fun c hc => (hkeep c hc).1
  have hmemdash : '-' ∈ mn ++ '-' :: ds :=
    List.mem_append.2 (Or.inr (List.mem_cons_self _ _))
  obtain ⟨c, t, rfl⟩ : ∃ c t, mn = c :: t := by
    cases mn with
    | nil => exact absurd rfl hmne
    | cons c t => exact ⟨c, t, rfl⟩
  have hca : isAlphaC c = true := halpha c (List.mem_cons_self c t)
  have hhd : headDigitB ((c :: t) ++ '-' :: ds) = false := by
    rw [headDigitB_append hmne]
    exact headDigitB_of_alpha halpha
  have hnorm : normalizeInput ((c :: t) ++ '-' :: ds) = (c :: t) ++ '-' :: ds := by
    apply normalizeInput_fixed
    intro x hx
    rcases List.mem_append.1 hx with h | h
    · exact ⟨(hkeep x h).2.1, (hkeep x h).2.2⟩
    · rcases List.mem_cons.1 h with h' | h'
      · subst h'; exact keep_of_dash
      · exact keep_of_digit (hds x h')
  have hnextwd : stageNextWd ((c :: t) ++ '-' :: ds) noww = none := by
    rw [List.cons_append]
    exact stageNextWd_none_dash (List.mem_append.2 (Or.inr (List.mem_cons_self _ _)))
  have hrel : matchRelative ((c :: t) ++ '-' :: ds) = none := by
    rw [List.cons_append]
    exact matchRelative_none_headAlpha hca
  unfold parse_date
  rw [hnorm]
  unfold parse_date_core
  rw [matchYmd_none_headNotDigit hhd, stageNumericDate_none, orElseO_none]
  rw [matchDmy_none_headNotDigit hhd]
  simp only [Option.map_none']
  rw [stageNumericDate_none, orElseO_none]
  rw [stageKeyword_none
    (lookupL_none_memDash (fun p hp => (keywordTable_keys p hp).2) hmemdash), orElseO_none]
  rw [stageBareWd_none
    (lookupL_none_memDash (fun p hp => (weekdayTable_keys p hp).2) hmemdash), orElseO_none]
  rw [hnextwd, orElseO_none]
  rw [stageNumberedWd_none (matchNumberedWd_none_head hhd), orElseO_none]
  rw [stageMarker_none
    (lookupL_none_memDash (fun p hp => (markerTable_keys p hp).2) hmemdash), orElseO_none]
  rw [stageOrdinal_none (matchOrdinal_none_head hhd), orElseO_none]
  rw [stageRelative_none hrel, orElseO_none]
  rw [stageDayMonth_none (matchDayMonth_none_head hhd), orElseO_none]
  unfold stageMonthDay
  rw [matchMonthDay_eval halpha hmne (by decide) hds hl]
  simp only [Option.map_some']
  rw [orElseO_some]
  unfold parse_month
  rw [hmn]

/-- On a short numeric input (digits, dash, digits) the cascade reaches
stage 14; the first capture is the day, the second the month. -/
theorem parse_reduce_short {ds ms : List Char} (now noww : Date)
    (hds : ∀ c ∈ ds, isDigitC c = true) (hl1 : 1 ≤ ds.length ∧ ds.length ≤ 2)
    (hms : ∀ c ∈ ms, isDigitC c = true) (hl2 : 1 ≤ ms.length ∧ ms.length ≤ 2) :
    parse_date (ds ++ '-' :: ms) now noww
      = find_next_occurrence now (valD ms) (valD ds) := by
  have hne : ds ≠ [] := by intro h; subst h; simp at hl1
  have hmsne : ms ≠ [] := by intro h; subst h; simp at hl2
  have hrd : headDigitB ('-' :: ms) = false := rfl
  have hra : headAlphaB ('-' :: ms) = false := rfl
  have hmsa : headAlphaB ms = false := headAlphaB_of_digits hms
  have hmemdash : '-' ∈ ds ++ '-' :: ms :=
    List.mem_append.2 (Or.inr (List.mem_cons_self _ _))
  obtain ⟨c, t, rfl⟩ : ∃ c t, ds = c :: t := by
    cases ds with
    | nil => exact absurd rfl hne
    | cons c t => exact ⟨c, t, rfl⟩
  have hnorm : normalizeInput ((c :: t) ++ '-' :: ms) = (c :: t) ++ '-' :: ms := by
    apply normalizeInput_fixed
    intro x hx
    rcases List.mem_append.1 hx with h | h
    · exact keep_of_digit (hds x h)
    · rcases List.mem_cons.1 h with h' | h'
      · subst h'; exact keep_of_dash
      · exact keep_of_digit (hms x h')
  have hnextwd : stageNextWd ((c :: t) ++ '-' :: ms) noww = none := by
    rw [List.cons_append]
    exact stageNextWd_none_head (digit_ne_n (hds c (List.mem_cons_self c t)))
  unfold parse_date
  rw [hnorm]
  unfold parse_date_core
  rw [matchYmd_none_len hds hrd (by omega), stageNumericDate_none, orElseO_none]
  rw [matchDmy_none_end hds (by decide) hms]
  simp only [Option.map_none']
  rw [stageNumericDate_none, orElseO_none]
  rw [stageKeyword_none
    (lookupL_none_memDash (fun p hp => (keywordTable_keys p hp).2) hmemdash), orElseO_none]
  rw [stageBareWd_none
    (lookupL_none_memDash (fun p hp => (weekdayTable_keys p hp).2) hmemdash), orElseO_none]
  rw [hnextwd, orElseO_none]
  rw [stageNumberedWd_none (matchNumberedWd_none_rest hds hrd
    (lookupL_none_headNotAlpha (fun p hp => (weekdayTable_keys p hp).1) hra)), orElseO_none]
  rw [stageMarker_none
    (lookupL_none_memDash (fun p hp => (markerTable_keys p hp).2) hmemdash), orElseO_none]
  rw [stageOrdinal_none (matchOrdinal_none_rest hds hrd
    (lookupL_none_headNotAlpha (fun p hp => (suffixTable_keys p hp).2.1) hra)), orElseO_none]
  rw [stageRelative_none (matchRelative_none_rest hds hne hrd
    (lookupL_none_headNotAlpha (fun p hp => (unitTable_keys p hp).2.1) hra)), orElseO_none]
  rw [stageDayMonth_none
    (matchDayMonth_none_afterSepNotAlpha hds (by decide) hmsa), orElseO_none]
  rw [stageMonthDay_none (matchMonthDay_none_headNotAlpha
    (by rw [headAlphaB_append hne]; exact headAlphaB_of_digits hds)), orElseO_none]
  rw [stageAlphaDmy_none
    (matchAlphaDmy_none_afterSepNotAlpha hds (by decide) hmsa), orElseO_none]
  rw [stageAlphaYmd_none (matchAlphaYmd_none_len hds hrd (by omega)), orElseO_none]
  unfold stageShort
  rw [matchShort_eval hds hl1 (by decide) hms hl2]
  simp only [Option.map_some']
  rw [orElseO_some]

/-! ## Claim C7 -/

/-- The number of days the month has in EVERY year (February pinned to
28): a `(month, day)` pair with `day` below this bound is a valid date in
any year. -/
def minDaysInMonth (m : Int) : Int :=
  if m = 2 then 28
  else if m = 4 ∨ m = 6 ∨ m = 9 ∨ m = 11 then 30 else 31

theorem minDaysInMonth_le (y m : Int) : minDaysInMonth m ≤ daysInMonth y m := by
  have := leapAdj_bounds y
  unfold minDaysInMonth daysInMonth
  split_ifs <;> omega

theorem find_next_occurrence_spec (today : Date) {month day : Int}
    (hm1 : 1 ≤ month) (hm2 : month ≤ 12) (hd1 : 1 ≤ day)
    (hd : ∀ y : Int, day ≤ daysInMonth y month) :
    find_next_occurrence today month day =
      .ok (if dle today ⟨today.y, month, day⟩ then ⟨today.y, month, day⟩
           else ⟨today.y + 1, month, day⟩) := by
  unfold find_next_occurrence
  rw [fromYmd?_pos ((DValid_mk _ _ _).2 ⟨hm1, hm2, hd1, hd _⟩)]
  rw [fromYmd?_pos ((DValid_mk _ _ _).2 ⟨hm1, hm2, hd1, hd _⟩)]
  dsimp only
  by_cases hle : dle today ⟨today.y, month, day⟩
  · rw [if_pos hle, if_pos hle]
  · rw [if_neg hle, if_neg hle]

/-- C7 counterexample: February 29 is a valid `(month, day)` pair in the
current (leap) year 2024, but that date has already passed by 2024-03-01
and the following year 2025 has no February 29, so the code reports
`InvalidCalendarDate` ("the specified day does not exist for this
month") instead of returning any next occurrence. -/
theorem c7_counterexample_feb29 :
    fromYmd? 2024 2 29 = some ⟨2024, 2, 29⟩ ∧
    dlt ⟨2024, 2, 29⟩ ⟨2024, 3, 1⟩ ∧
    parse_date (s2l "29-feb") ⟨2024, 3, 1⟩ ⟨2024, 3, 1⟩ = .error .invalidDayForMonth :=
  ⟨by decide, by decide, rfl⟩

/-- C7 (amended): for a `(month, day)` pair that is a valid date in EVERY
year (day at most `minDaysInMonth month`, which only excludes February
29), a day-month, month-day, or short-numeric rendering of the pair
resolves to the date in the current year when that date is not strictly
earlier than today, and otherwise to the same month and day in the next
year.  (For February 29 the year-round guarantee fails: if this year's
occurrence has passed and next year is not leap, the code reports an
error instead — see the counterexample.) -/
theorem c7_next_occurrence_amended (mn : List Char) (mv : Int) (ds ms : List Char)
    (now noww : Date)
    (hmn : lookupL monthTable mn = some mv)
    (hds : ∀ c ∈ ds, isDigitC c = true) (hl1 : 1 ≤ ds.length) (hl2 : ds.length ≤ 2)
    (hms : ∀ c ∈ ms, isDigitC c = true) (hm1 : 1 ≤ ms.length) (hm2 : ms.length ≤ 2)
    (hmsv : (valD ms : Int) = mv)
    (hd1 : 1 ≤ (valD ds : Int)) (hdmin : (valD ds : Int) ≤ minDaysInMonth mv)
    (hv : DValid now) :
    parse_date (ds ++ '-' :: mn) now noww
      = .ok (if dle now ⟨now.y, mv, (valD ds : Int)⟩ then ⟨now.y, mv, (valD ds : Int)⟩
             else ⟨now.y + 1, mv, (valD ds : Int)⟩) ∧
    parse_date (mn ++ '-' :: ds) now noww
      = .ok (if dle now ⟨now.y, mv, (valD ds : Int)⟩ then ⟨now.y, mv, (valD ds : Int)⟩
             else ⟨now.y + 1, mv, (valD ds : Int)⟩) ∧
    parse_date (ds ++ '-' :: ms) now noww
      = .ok (if dle now ⟨now.y, mv, (valD ds : Int)⟩ then ⟨now.y, mv, (valD ds : Int)⟩
             else ⟨now.y + 1, mv, (valD ds : Int)⟩) := by
  obtain ⟨_, _, _, hmne, hmv1, hmv2⟩ := monthTable_keys _ (lookupL_mem hmn)
  have hfit : ∀ y : Int, (valD ds : Int) ≤ daysInMonth y mv :=
    fun y => le_trans hdmin (minDaysInMonth_le y mv)
  have hspec := find_next_occurrence_spec now hmv1 hmv2 hd1 hfit
  refine ⟨?_, ?_, ?_⟩
  · rw [parse_reduce_dayMonth now noww hds ⟨hl1, hl2⟩ hmn, hspec]
  · rw [parse_reduce_monthDay now noww hmn hds ⟨hl1, hl2⟩, hspec]
  · rw [parse_reduce_short now noww hds ⟨hl1, hl2⟩ hms ⟨hm1, hm2⟩, hmsv, hspec]

theorem c7_next_occurrence_amended_witness :
    lookupL monthTable (s2l "jan") = some 1 ∧
    (∀ c ∈ s2l "16", isDigitC c = true) ∧
    1 ≤ (s2l "16").length ∧ (s2l "16").length ≤ 2 ∧
    (∀ c ∈ s2l "1", isDigitC c = true) ∧
    1 ≤ (s2l "1").length ∧ (s2l "1").length ≤ 2 ∧
    (valD (s2l "1") : Int) = 1 ∧
    1 ≤ (valD (s2l "16") : Int) ∧ (valD (s2l "16") : Int) ≤ minDaysInMonth 1 ∧
    DValid ⟨2024, 1, 10⟩ ∧
    (parse_date (s2l "16" ++ '-' :: s2l "jan") ⟨2024, 1, 10⟩ ⟨2024, 1, 10⟩
      = .ok (if dle ⟨2024, 1, 10⟩ ⟨(⟨2024, 1, 10⟩ : Date).y, 1, (valD (s2l "16") : Int)⟩
             then ⟨(⟨2024, 1, 10⟩ : Date).y, 1, (valD (s2l "16") : Int)⟩
             else ⟨(⟨2024, 1, 10⟩ : Date).y + 1, 1, (valD (s2l "16") : Int)⟩) ∧
    parse_date (s2l "jan" ++ '-' :: s2l "16") ⟨2024, 1, 10⟩ ⟨2024, 1, 10⟩
      = .ok (if dle ⟨2024, 1, 10⟩ ⟨(⟨2024, 1, 10⟩ : Date).y, 1, (valD (s2l "16") : Int)⟩
             then ⟨(⟨2024, 1, 10⟩ : Date).y, 1, (valD (s2l "16") : Int)⟩
             else ⟨(⟨2024, 1, 10⟩ : Date).y + 1, 1, (valD (s2l "16") : Int)⟩) ∧
    parse_date (s2l "16" ++ '-' :: s2l "1") ⟨2024, 1, 10⟩ ⟨2024, 1, 10⟩
      = .ok (if dle ⟨2024, 1, 10⟩ ⟨(⟨2024, 1, 10⟩ : Date).y, 1, (valD (s2l "16") : Int)⟩
             then ⟨(⟨2024, 1, 10⟩ : Date).y, 1, (valD (s2l "16") : Int)⟩
             else ⟨(⟨2024, 1, 10⟩ : Date).y + 1, 1, (valD (s2l "16") : Int)⟩)) :=
  ⟨by decide, by decide, by decide, by decide, by decide, by decide, by decide, by decide,
   by decide, by decide, by decide,
   c7_next_occurrence_amended (s2l "jan") 1 (s2l "16") (s2l "1") ⟨2024, 1, 10⟩ ⟨2024, 1, 10⟩
     (by decide) (by decide) (by decide) (by decide) (by decide) (by decide) (by decide)
     (by decide) (by decide) (by decide) (by decide)⟩
